import Mathlib

/-!
Verification of the experiment-driver code of the `generalised_shapelets`
repository (files `experiments/common.py` and `experiments/uea.py`).

Each Python function relevant to the frozen claims is shallowly embedded as a
computable Lean definition: tensors and float values become rationals or lists
of rationals, Python dicts become association lists, fallible code returns
`Option`/`Except`, and the training loop becomes an explicit fold over a state
record.  The theorems at the end of the file settle the claims against these
definitions.
-/

/-! ## Embedding of `common.dataloader` (common.py, lines 26-34)

`dataloader(dataset, **kwargs)` defaults `shuffle`/`drop_last` to `True` and
`batch_size` to 32 when absent, then clamps `batch_size` to `len(dataset)`.
The embedding computes the keyword arguments finally passed to
`torch.utils.data.DataLoader`; the DataLoader object itself is an external
collaborator. -/

structure DataloaderArgs where
  batch_size : Nat
  shuffle : Bool
  drop_last : Bool
  deriving Repr, DecidableEq

def dataloader (datasetLen : Nat) (batch_size : Option Nat)
    (shuffle : Option Bool) (drop_last : Option Bool) : DataloaderArgs :=
  let sh := shuffle.getD true
  let dl := drop_last.getD true
  let bs := batch_size.getD 32
  { batch_size := min bs datasetLen, shuffle := sh, drop_last := dl }

/-! ## Embedding of `uea._pad` (uea.py, lines 15-19)

`_pad(channel, maxlen)` builds `out = torch.full((maxlen,), channel[-1])` and
assigns `out[:channel.size(0)] = channel`.  A channel is a list of rationals;
`channel[-1]` is its last element (the Python code indexes a non-empty
channel). -/

def _pad (channel : List ℚ) (maxlen : Nat) : List ℚ :=
  let out := List.replicate maxlen (channel.getLastD 0)
  channel.take maxlen ++ out.drop (min channel.length maxlen)

/-! ## Embedding of the filename logic of `common.save_results`
(common.py, lines 301-322)

`save_results` scans the result subfolder, keeps the largest filename that
`int(...)` accepts (`-1` when none parses), and writes to `str(num + 1)`.
Filenames are Lean `String`s; `pyInt` embeds Python's `int(str)` conversion
(an optional sign followed by decimal digits), and `natStr` embeds `str(num)`
for the non-negative numbers this code produces. -/

def digitsVal (cs : List Char) : Nat :=
  cs.foldl (fun a c => a * 10 + (c.toNat - 48)) 0

def parseDigits (cs : List Char) : Option Nat :=
  if cs ≠ [] ∧ cs.all Char.isDigit then some (digitsVal cs) else none

def pyInt (s : String) : Option Int :=
  match s.data with
  | [] => none
  | c :: rest =>
    if c = '-' then (parseDigits rest).map (fun n => -(n : Int))
    else if c = '+' then (parseDigits rest).map (fun n => (n : Int))
    else (parseDigits (c :: rest)).map (fun n => (n : Int))

def digitChar (d : Nat) : Char := Char.ofNat (48 + d)

def natStr (n : Nat) : String :=
  if n = 0 then "0"
  else ⟨(Nat.digits 10 n).reverse.map digitChar⟩

/-- One step of `num = max(num, int(filename))`, with the `except ValueError:
pass` for unparsable filenames. -/
def maxStep (acc : Int) (f : String) : Int :=
  match pyInt f with
  | some k => max acc k
  | none => acc

/-- Folds `maxStep` over the directory listing starting from `-1`, then adds
the final `num += 1` of the source. -/
def nextFileNum (files : List String) : Int :=
  files.foldl maxStep (-1) + 1

def newResultName (files : List String) : String :=
  natStr (nextFileNum files).toNat

/-! ## Embedding of `common._get_sample_batch` (common.py, lines 45-64)

The dataloader is flattened to the stream of `(Xi, yi)` samples it yields per
full pass; labels are the integers `int(yi)`.  `y_seen` is a `defaultdict`, so
merely reading `y_seen[yi]` records the key: the embedding keeps the list of
appended `(sample, label)` pairs (from which `y_seen[yi]`'s count is the
number of appended pairs with label `yi`) together with the list of distinct
keys touched.  The `while True:` loop is run with fuel; `none` models
divergence and `Except.error` the `RuntimeError`. -/

structure SBState (α : Type) where
  elems : List (α × Nat)
  keys : List Nat

def countLabel {α : Type} (elems : List (α × Nat)) (y : Nat) : Nat :=
  (elems.filter (fun p => p.2 = y)).length

def insertKey (ks : List Nat) (y : Nat) : List Nat :=
  if y ∈ ks then ks else ks ++ [y]

/-- One `for X, y in dataloader:` pass.  `Sum.inr` is the early `return`
(the stacked batch, kept here with its labels), `Sum.inl` the state after a
full pass. -/
def runPass {α : Type} (nspc ns : Nat) :
    List (α × Nat) → SBState α → SBState α ⊕ List (α × Nat)
  | [], st => Sum.inl st
  | (x, y) :: rest, st =>
    let st' : SBState α :=
      if countLabel st.elems y < nspc then
        ⟨st.elems ++ [(x, y)], insertKey st.keys y⟩
      else
        ⟨st.elems, insertKey st.keys y⟩
    if st'.elems.length = ns then Sum.inr st'.elems
    else runPass nspc ns rest st'

/-- The state after processing one `(Xi, yi)` element (append when the label
is under quota, and record the key touched by the `defaultdict` read). -/
def passStep {α : Type} (nspc : Nat) (st : SBState α) (x : α) (y : Nat) : SBState α :=
  if countLabel st.elems y < nspc then
    ⟨st.elems ++ [(x, y)], insertKey st.keys y⟩
  else ⟨st.elems, insertKey st.keys y⟩

def sampleBatchAux {α : Type} (nspc ns : Nat) (data : List (α × Nat)) :
    Nat → SBState α → Option (Except Unit (List (α × Nat)))
  | 0, _ => none
  | fuel + 1, st =>
    match runPass nspc ns data st with
    | Sum.inr batch => some (Except.ok batch)
    | Sum.inl st' =>
      if st'.keys.length * nspc ≠ ns then some (Except.error ())
      else sampleBatchAux nspc ns data fuel st'

def _get_sample_batch {α : Type} (data : List (α × Nat)) (nspc ns : Nat) :
    Option (Except Unit (List (α × Nat))) :=
  sampleBatchAux nspc ns data (ns + 1) ⟨[], []⟩

/-! ## Embedding of `common._train_loop` (common.py, lines 197-271)

The mutable training world (model parameters, Adam state, learning rate,
scheduler state) is an abstract type `W`; one epoch of the inner batch loop is
`trainStep : W → W`, `_evaluate_metrics` on the train and validation loaders
is `metrics : W → ℚ × ℚ` (training loss, validation accuracy),
`scheduler.step(val_acc)` is `sched : ℚ → W → W`, and `copy.deepcopy(model)`
extracts the parameter snapshot `snap : W → P`.  `bestTrainLoss = none` models
the initial `math.inf`.  The history records, per evaluation epoch, the epoch
number, training loss, validation accuracy, and the parameter snapshot at
that moment. -/

structure EvalEntry (P : Type) where
  epoch : Nat
  trainLoss : ℚ
  valAcc : ℚ
  snap : P

structure TrainState (W P : Type) where
  world : W
  best : Option P
  bestValAcc : ℚ
  bestTrainLoss : Option ℚ
  bestEpoch : Nat
  breaking : Bool
  executed : Nat
  hist : List (EvalEntry P)

/-- The plateau test `train_metrics.loss * 1.0001 < best_train_loss` of
common.py line 246 (always true against the initial `math.inf`). -/
def lossImproved (tl : ℚ) : Option ℚ → Bool
  | none => true
  | some b => decide (tl * 1.0001 < b)

/-- `epoch % epoch_per_metric == 0 or epoch == epochs - 1` with
`epoch_per_metric = 10` (common.py line 240). -/
def isEvalEpoch (epochs epoch : Nat) : Bool :=
  epoch % 10 == 0 || epoch == epochs - 1

def epochStep {W P : Type} (trainStep : W → W) (metrics : W → ℚ × ℚ)
    (sched : ℚ → W → W) (snap : W → P) (epochs : Nat)
    (st : TrainState W P) (epoch : Nat) : TrainState W P :=
  if st.breaking then st
  else
    let w := trainStep st.world
    if isEvalEpoch epochs epoch then
      let tl := (metrics w).1
      let va := (metrics w).2
      let bl := if lossImproved tl st.bestTrainLoss then some tl else st.bestTrainLoss
      let be := if lossImproved tl st.bestTrainLoss then epoch else st.bestEpoch
      let bp := if st.bestValAcc < va then some (snap w) else st.best
      let bv := if st.bestValAcc < va then va else st.bestValAcc
      { world := sched va w
        best := bp
        bestValAcc := bv
        bestTrainLoss := bl
        bestEpoch := be
        breaking := decide (be + 50 < epoch)
        executed := st.executed + 1
        hist := st.hist ++ [⟨epoch, tl, va, snap w⟩] }
    else
      { st with world := w, executed := st.executed + 1 }

def initTrainState {W P : Type} (w0 : W) : TrainState W P :=
  ⟨w0, none, 0, none, 0, false, 0, []⟩

def trainLoopRun {W P : Type} (trainStep : W → W) (metrics : W → ℚ × ℚ)
    (sched : ℚ → W → W) (snap : W → P) (epochs : Nat) (w0 : W) :
    TrainState W P :=
  (List.range epochs).foldl (epochStep trainStep metrics sched snap epochs)
    (initTrainState w0)

/-- The parameters held by `model` after the final
`parameter.data = best_parameter.data` copy (common.py lines 269-270).
`best_model` initially aliases `model`, so when no validation improvement ever
occurred the copy is the identity and the final-epoch parameters remain. -/
def trainLoopResult {W P : Type} (trainStep : W → W) (metrics : W → ℚ × ℚ)
    (sched : ℚ → W → W) (snap : W → P) (epochs : Nat) (w0 : W) : P :=
  let st := trainLoopRun trainStep metrics sched snap epochs w0
  st.best.getD (snap st.world)

/-- Declarative reading of the plateau bookkeeping: folding the update of
`best_train_loss`/`best_epoch` (common.py lines 246-248) over an evaluation
history. -/
def bestOfHist {P : Type} (h : List (EvalEntry P)) : Option ℚ × Nat :=
  h.foldl (fun st e => if lossImproved e.trainLoss st.1 then (some e.trainLoss, e.epoch) else st)
    (none, 0)

/-- The early-stopping condition of the code, read off an evaluation history:
some evaluated epoch `e` satisfied `e > best_epoch + 50` with `best_epoch`
tracked by `bestOfHist` up to and including that entry. -/
def stopAt {P : Type} (h : List (EvalEntry P)) : Prop :=
  ∃ k, ∃ hk : k < h.length,
    (bestOfHist (h.take (k + 1))).2 + 50 < (h.get ⟨k, hk⟩).epoch

/-- The loop invariant tying the mutable training state to its evaluation
history: the plateau bookkeeping is the fold of the history, the breaking
flag is equivalent to the declarative early-stopping condition, and the best
snapshot tracks the maximum validation accuracy seen (absent iff no positive
accuracy was ever observed). -/
def TrainInv {W P : Type} (epochs : Nat) (st : TrainState W P) : Prop :=
  (st.bestTrainLoss, st.bestEpoch) = bestOfHist st.hist ∧
  (st.breaking = true ↔ stopAt st.hist) ∧
  (st.best = none → st.bestValAcc = 0 ∧ ∀ en ∈ st.hist, en.valAcc ≤ 0) ∧
  (∀ p, st.best = some p → 0 < st.bestValAcc ∧
    ∃ en ∈ st.hist, en.valAcc = st.bestValAcc ∧ en.snap = p) ∧
  (∀ en ∈ st.hist, en.valAcc ≤ st.bestValAcc) ∧
  0 ≤ st.bestValAcc ∧
  (∀ en ∈ st.hist, isEvalEpoch epochs en.epoch = true)

/-- Reading of claim C5's wording, for the counterexample: `best_epoch` is the
most recent evaluation epoch at which the training loss fell below `1.0001`
times the best (smallest) training loss seen so far. -/
def claimEarlyStopAux {P : Type} (minLoss : Option ℚ) (bestE : Nat) :
    List (EvalEntry P) → Bool
  | [] => false
  | e :: rest =>
    let impr : Bool :=
      match minLoss with
      | none => true
      | some m => decide (e.trainLoss < 1.0001 * m)
    let be := if impr then e.epoch else bestE
    let m' : Option ℚ :=
      match minLoss with
      | none => some e.trainLoss
      | some m => some (min m e.trainLoss)
    decide (be + 50 < e.epoch) || claimEarlyStopAux m' be rest

def claimEarlyStop {P : Type} (h : List (EvalEntry P)) : Bool :=
  claimEarlyStopAux none 0 h

/-- A concrete training run used to compare the code's plateau test with the
claim's reading: the training loss is constantly 1 and the validation
accuracy constantly 0, for 62 epochs. -/
def constLossMetrics : Unit → ℚ × ℚ := fun _ => (1, 0)

def constLossStep : TrainState Unit Unit → Nat → TrainState Unit Unit :=
  epochStep (fun w => w) constLossMetrics (fun _ w => w) (fun w => w) 62

def constLossRun : TrainState Unit Unit :=
  trainLoopRun (fun w => w) constLossMetrics (fun _ w => w) (fun w => w) 62 ()

/-- Shorthand for the states the constant-loss run passes through (the best
snapshot stays absent and the best validation accuracy stays 0). -/
def ceState (executed : Nat) (btl : Option ℚ) (be : Nat) (brk : Bool)
    (h : List (EvalEntry Unit)) : TrainState Unit Unit :=
  ⟨(), none, 0, btl, be, brk, executed, h⟩

/-! ## Embedding of the record transformation in `common.save_results`
(common.py, lines 308-322, with `_TensorEncoder`, lines 293-298)

A results record is an association list from string keys to values; a value is
a model, a dataloader, a string, or any other JSON-serialisable payload
(metric histories, hyperparameters, metrics), kept abstract as `J`.
`result_to_save = results.copy()` is a shallow copy, so the three `del`
statements and the `model` reassignment act on the copy only; the embedding
therefore computes the saved record as a pure function of the input record.
Python's `str(...)` is the abstract `strOf`.  `del` on a missing key raises
`KeyError`, modelled by `none`. -/

inductive RVal (M D J : Type) where
  | model : M → RVal M D J
  | dl : D → RVal M D J
  | str : String → RVal M D J
  | other : J → RVal M D J

def dictGet {V : Type} (k : String) (d : List (String × V)) : Option V :=
  (d.find? (fun p => p.1 = k)).map (fun p => p.2)

def dictHas {V : Type} (k : String) (d : List (String × V)) : Bool :=
  (d.find? (fun p => p.1 = k)).isSome

def dictDel {V : Type} (k : String) (d : List (String × V)) :
    Option (List (String × V)) :=
  if dictHas k d then some (d.filter (fun p => p.1 ≠ k)) else none

def dictSet {V : Type} (k : String) (v : V) (d : List (String × V)) :
    List (String × V) :=
  d.map (fun p => if p.1 = k then (k, v) else p)

/-- The record written by `save_results`: the copy with the three dataloader
entries deleted and `model` replaced by its string representation. -/
def resultToSave {M D J : Type} (strOf : RVal M D J → String)
    (results : List (String × RVal M D J)) :
    Option (List (String × RVal M D J)) := do
  let r1 ← dictDel "train_dataloader" results
  let r2 ← dictDel "val_dataloader" r1
  let r3 ← dictDel "test_dataloader" r2
  let m ← dictGet "model" r3
  pure (dictSet "model" (RVal.str (strOf m)) r3)

/-- A small concrete results record used to witness the theorems about
`resultToSave`. -/
def exampleResults : List (String × RVal Unit Unit Unit) :=
  [("train_dataloader", RVal.dl ()), ("val_dataloader", RVal.dl ()),
   ("test_dataloader", RVal.dl ()), ("model", RVal.model ()),
   ("history", RVal.other ())]

/-! ## Embedding of the label normalisation in `uea.get_data`
(uea.py, lines 155-162 and 186-189)

`targets` is an `OrderedDict` from raw label to the counter value at first
appearance; `all_y` is the concatenated train & test labels.  The final
`assert num_classes >= 2` is the `Except.error` case. -/

/-- One step of the `targets`/`counter` fold: `if yi not in targets:
targets[yi] = counter; counter += 1`. -/
def lfStep {L : Type} [DecidableEq L] (st : List (L × Nat) × Nat) (y : L) :
    List (L × Nat) × Nat :=
  if (st.1.find? (fun p => p.1 = y)).isSome then st
  else (st.1 ++ [(y, st.2)], st.2 + 1)

def labelFold {L : Type} [DecidableEq L] (ys : List L) :
    List (L × Nat) × Nat :=
  ys.foldl lfStep ([], 0)

/-- Lookup `targets[yi]` (present for every `yi ∈ all_y`; the `getD 0` default
is never exercised on members). -/
def lookupLabel {L : Type} [DecidableEq L] (targets : List (L × Nat)) (y : L) : Nat :=
  (((targets.find? (fun p => p.1 = y)).map (fun p => p.2)).getD 0)

def normaliseLabels {L : Type} [DecidableEq L] (ys : List L) :
    Except String (List Nat × Nat) :=
  let targets := (labelFold ys).1
  let counter := (labelFold ys).2
  let mapped := ys.map (lookupLabel targets)
  if counter < 2 then Except.error "Have only so few classes." else Except.ok (mapped, counter)

/-- Appends a label to the accumulated distinct-label list when new. -/
def foStep {L : Type} [DecidableEq L] (acc : List L) (y : L) : List L :=
  if y ∈ acc then acc else acc ++ [y]

/-- First-appearance-ordered distinct labels: the keys of the `OrderedDict`. -/
def firstOrder {L : Type} [DecidableEq L] (ys : List L) : List L :=
  ys.foldl foStep []

/-- The keys of `targets` paired with consecutive counter values from `k`. -/
def natPairsFrom {L : Type} (k : Nat) : List L → List (L × Nat)
  | [] => []
  | a :: t => (a, k) :: natPairsFrom (k + 1) t

/-- Index of the first occurrence of `y` (equals `ys.length` when absent). -/
def firstOccur {L : Type} [DecidableEq L] (ys : List L) (y : L) : Nat :=
  match ys with
  | [] => 0
  | a :: t => if a = y then 0 else firstOccur t y + 1

/-- The integer assigned to a raw label: its position among the distinct
labels in order of first appearance. -/
def mapLabel {L : Type} [DecidableEq L] (ys : List L) (y : L) : Nat :=
  firstOccur (firstOrder ys) y

/-! ## Embedding of the missing-data pass in `uea.get_data`
(uea.py, lines 117-153)

Per batch element and channel: `torch.randperm(length - 2) + 1` is an
arbitrary permutation `perm` of `0..length-3` shifted by one, the first
`int(length * missing_rate)` entries are kept and sorted, and each removed
index is replaced by the linear interpolation between the previous and next
unremoved indices, computed by two directional scans.  The scans index
`removed_points[0]`/`removed_points[-1]`, which raises `IndexError` on an
empty selection — hence the `Option` result. -/

/-- Python `int(q)` for a rational (truncation toward zero). -/
def pyTrunc (q : ℚ) : Int :=
  if 0 ≤ q then ⌊q⌋ else ⌈q⌉

/-- `removed_points = (torch.randperm(length - 2) + 1)[:k].sort().values`. -/
def removedPoints (k : Nat) (perm : List Nat) : List Nat :=
  ((perm.take k).map (· + 1)).mergeSort (fun a b => a ≤ b)

/-- The forward scan computing `prev_unremoved_points[1:]`: state `pu` is the
current `prev_unremoved_point`, `pr` the previous removed point. -/
def prevScan (pu pr : Nat) : List Nat → List Nat
  | [] => []
  | r :: rest =>
    let pu' := if pr ≠ r - 1 then r - 1 else pu
    pu' :: prevScan pu' r rest

/-- `prev_unremoved_points` for a (sorted, non-empty) removed list. -/
def prevUnremoved : List Nat → List Nat
  | [] => []
  | r0 :: rest => (r0 - 1) :: prevScan (r0 - 1) r0 rest

/-- The backward scan computing `next_unremoved_points[1:]` over
`reversed(removed_points[:-1])`: state `nu` is the current
`next_unremoved_point`, `nr` the removed point processed just before. -/
def nextScan (nu nr : Nat) : List Nat → List Nat
  | [] => []
  | r :: rest =>
    let nu' := if nr ≠ r + 1 then r + 1 else nu
    nu' :: nextScan nu' r rest

/-- `next_unremoved_points`, built in reverse as in the source and reversed at
the end. -/
def nextUnremoved (l : List Nat) : List Nat :=
  match l.reverse with
  | [] => []
  | rN :: revRest => ((rN + 1) :: nextScan (rN + 1) rN revRest).reverse

/-- The in-place update loop over `zip(prev_unremoved_points, removed_points,
next_unremoved_points)`: each removed index is overwritten with the linear
interpolation between the stream values at its previous and next unremoved
indices. -/
def applyInterp (times : List ℚ) : List (Nat × Nat × Nat) → List ℚ → List ℚ
  | [], stream => stream
  | (p, r, n) :: rest, stream =>
    let prevS := stream.getD p 0
    let nextS := stream.getD n 0
    let pt := times.getD p 0
    let nt := times.getD n 0
    let t := times.getD r 0
    let lam := (t - pt) / (nt - pt)
    applyInterp times rest (stream.set r (prevS + lam * (nextS - prevS)))

/-- Triples `(prev, removed, next)` in lockstep. -/
def zip3 (ps rs ns : List Nat) : List (Nat × Nat × Nat) :=
  ps.zip (rs.zip ns)

/-- The whole per-channel missingness pass: `none` models the `IndexError`
raised when no point was selected. -/
def interpolateChannel (times stream : List ℚ) (removed : List Nat) :
    Option (List ℚ) :=
  match removed with
  | [] => none
  | _ :: _ =>
    some (applyInterp times
      (zip3 (prevUnremoved removed) removed (nextUnremoved removed)) stream)

/-- `p` is the nearest unselected index below `r`. -/
def isPrevFree (removed : List Nat) (r p : Nat) : Prop :=
  p < r ∧ p ∉ removed ∧ ∀ j, p < j → j < r → j ∈ removed

/-- `n` is the nearest unselected index above `r`. -/
def isNextFree (removed : List Nat) (r n : Nat) : Prop :=
  r < n ∧ n ∉ removed ∧ ∀ j, r < j → j < n → j ∈ removed

/-! ## Embedding of the configuration resolution in `common.main`
(common.py, lines 325-394) and `common._get_discrepancy_fn` (lines 107-138)

`main` overrides its arguments when `old_shapelets` is set, resolves the
`None` defaults from the dataset length, selects the discrepancy function by
name, and — in the `old_shapelets` case — replaces the model's learnt length
parameter with an untrainable buffer filled with `max_shapelet_length`.
`torch.sqrt` on the float `10 / timespan` is kept abstract (`sqrtFn`); the
initial value of `model.shapelet_transform.lengths` comes from the external
`torchshapelets` library and is likewise a parameter (`initLengths`). -/

/-- The discrepancy selected by `_get_discrepancy_fn`.  `piecewiseL2sq`
denotes the closure `fn(times, path, shapelet) = ((path - shapelet) ** 2)
.sum(dim=(-1, -2))`, embedded below as `piecewiseConstL2SquaredFn`. -/
inductive DiscKind where
  | l2 : Bool → DiscKind
  | l2sq : Bool → DiscKind
  | piecewiseL2sq : DiscKind
  | dtw : DiscKind
  | logsig : Nat → Bool → DiscKind
  | unchanged : String → DiscKind
  deriving Repr, DecidableEq

def piecewiseConstL2SquaredFn (path shapelet : List (List ℚ)) : ℚ :=
  ((path.zip shapelet).map
    (fun pq => ((pq.1.zip pq.2).map (fun ab => (ab.1 - ab.2) ^ 2)).sum)).sum

def _get_discrepancy_fn (name : String) (pseudometric : Bool) : Option DiscKind :=
  if name = "L2" then some (DiscKind.l2 pseudometric)
  else if name = "L2_squared" then some (DiscKind.l2sq pseudometric)
  else if name = "piecewise_constant_L2_squared" then some DiscKind.piecewiseL2sq
  else if name = "DTW" then some DiscKind.dtw
  else if 2 ≤ (name.splitOn "logsig").length then
    match name.splitOn "-" with
    | [a, b] =>
      if a = "logsig" then (pyInt b).map (fun d => DiscKind.logsig d.toNat pseudometric)
      else none
    | _ => none
  else some (DiscKind.unchanged name)

structure ResolvedConfig where
  discrepancy : Option DiscKind
  max_shapelet_length_proportion : ℚ
  num_shapelet_samples : Nat
  num_continuous_samples : Nat
  max_shapelet_length : ℚ
  ablation_pseudometric : Bool
  ablation_learntlengths : Bool
  ablation_similarreg : Bool
  log : Bool
  num_shapelets : Nat
  lengthsValues : List ℚ
  lengthsTrainable : Bool

def resolveMain (times : List ℚ) (num_classes : Nat)
    (num_shapelets_per_class : Nat) (num_shapelet_samples : Option Nat)
    (discrepancy_fn : String) (max_shapelet_length_proportion : Option ℚ)
    (num_continuous_samples : Option Nat)
    (ablation_pseudometric ablation_learntlengths ablation_similarreg : Bool)
    (old_shapelets : Bool) (sqrtFn : ℚ → ℚ) (initLengths : List ℚ) :
    ResolvedConfig :=
  let df := if old_shapelets then "piecewise_constant_L2_squared" else discrepancy_fn
  let mslp0 := if old_shapelets then some ((0.3 : ℚ)) else max_shapelet_length_proportion
  let pseudo := if old_shapelets then false else ablation_pseudometric
  let learnt := if old_shapelets then false else ablation_learntlengths
  let simreg := if old_shapelets then false else ablation_similarreg
  let ncs0 := if old_shapelets then none else num_continuous_samples
  let log := if old_shapelets then false else true
  let timespan := times.getLastD 0 - times.headD 0
  let mslp :=
    match mslp0 with
    | none => min (sqrtFn (10 / timespan)) 1
    | some v => v
  let msl := timespan * mslp
  let nss :=
    match num_shapelet_samples with
    | none => (pyTrunc (mslp * (times.length : ℚ))).toNat
    | some v => v
  let ncs :=
    match ncs0 with
    | none => times.length
    | some v => v
  { discrepancy := _get_discrepancy_fn df pseudo
    max_shapelet_length_proportion := mslp
    num_shapelet_samples := nss
    num_continuous_samples := ncs
    max_shapelet_length := msl
    ablation_pseudometric := pseudo
    ablation_learntlengths := learnt
    ablation_similarreg := simreg
    log := log
    num_shapelets := num_shapelets_per_class * num_classes
    lengthsValues :=
      if old_shapelets then List.replicate initLengths.length msl else initLengths
    lengthsTrainable := if old_shapelets then false else learnt }

/-! # Theorems -/

/-! ## Claim C10: `dataloader` argument resolution -/

/-- Claim C10: `common.dataloader` produces a batch size equal to the minimum
of the requested batch size (default 32) and the dataset length — hence never
exceeding the dataset length — and defaults `shuffle` and `drop_last` to
`True` when they are not supplied. -/
theorem dataloader_spec (n : Nat) (bs : Option Nat) (sh dl : Option Bool) :
    dataloader n bs sh dl =
      { batch_size := min (bs.getD 32) n
        shuffle := sh.getD true
        drop_last := dl.getD true } ∧
    (dataloader n bs sh dl).batch_size ≤ n := by
  refine ⟨rfl, ?_⟩
  simp [dataloader]

/-- Witness for C10 at a concrete dataset of 5 elements with no keyword
arguments supplied. -/
theorem dataloader_spec_witness :
    dataloader 5 none none none =
      { batch_size := min ((none : Option Nat).getD 32) 5
        shuffle := (none : Option Bool).getD true
        drop_last := (none : Option Bool).getD true } ∧
    (dataloader 5 none none none).batch_size ≤ 5 :=
  dataloader_spec 5 none none none

/-! ## Claim C7: `_pad` -/

/-- Claim C7: for a non-empty channel of length `n ≤ maxlen`, `_pad` returns a
list of length exactly `maxlen` whose first `n` entries are the channel's
entries in order and whose remaining entries all equal the channel's last
value. -/
theorem pad_spec (c : List ℚ) (m : Nat) (hne : c ≠ []) (hlen : c.length ≤ m) :
    (_pad c m).length = m ∧
    (∀ i, i < c.length → (_pad c m).getD i 0 = c.getD i 0) ∧
    (∀ i, c.length ≤ i → i < m → (_pad c m).getD i 0 = c.getLast hne) := by
  have hmin : min c.length m = c.length := Nat.min_eq_left hlen
  have htake : c.take m = c := List.take_of_length_le hlen
  have hlast : c.getLastD 0 = c.getLast hne := by
    rw [List.getLastD_eq_getLast?, List.getLast?_eq_getLast c hne]
    rfl
  have hpad : _pad c m = c ++ List.replicate (m - c.length) (c.getLast hne) := by
    unfold _pad
    rw [hmin, htake]
    show c ++ List.drop c.length (List.replicate m (c.getLastD 0)) = _
    rw [List.drop_replicate, hlast]
  refine ⟨?_, ?_, ?_⟩
  · rw [hpad]
    simp [Nat.add_sub_cancel' hlen]
  · intro i hi
    rw [hpad, List.getD_append _ _ _ _ hi]
  · intro i hge hlt
    rw [hpad, List.getD_append_right _ _ _ _ hge]
    have hi : i - c.length < m - c.length := by omega
    rw [List.getD_eq_getElem _ _ (by simpa using hi)]
    simp

/-! ## Claim C3: `save_results` filename selection -/

theorem digitChar_isDigit {d : Nat} (hd : d < 10) : (digitChar d).isDigit = true := by
  interval_cases d <;> decide

theorem digitChar_toNat {d : Nat} (hd : d < 10) : (digitChar d).toNat = 48 + d := by
  interval_cases d <;> decide

theorem digitChar_ne_minus {d : Nat} (hd : d < 10) : digitChar d ≠ '-' := by
  interval_cases d <;> decide

theorem digitChar_ne_plus {d : Nat} (hd : d < 10) : digitChar d ≠ '+' := by
  interval_cases d <;> decide

theorem digitsVal_horner (L : List Nat) (a : Nat) (hL : ∀ d ∈ L, d < 10) :
    (L.reverse.map digitChar).foldl (fun x c => x * 10 + (c.toNat - 48)) a =
      a * 10 ^ L.length + Nat.ofDigits 10 L := by
  induction L generalizing a with
  | nil => simp [Nat.ofDigits]
  | cons d T ih =>
    have hd : d < 10 := hL d (by simp)
    have hT : ∀ e ∈ T, e < 10 := fun e he => hL e (by simp [he])
    rw [List.reverse_cons, List.map_append, List.foldl_append, ih a hT]
    simp only [List.map_cons, List.map_nil, List.foldl_cons, List.foldl_nil,
      digitChar_toNat hd, Nat.ofDigits_cons, List.length_cons]
    have : 48 + d - 48 = d := by omega
    rw [this, pow_succ]
    ring

theorem pyInt_natStr (n : Nat) : pyInt (natStr n) = some (n : Int) := by
  by_cases h0 : n = 0
  · subst h0
    decide
  · unfold natStr
    rw [if_neg h0]
    have hL : Nat.digits 10 n ≠ [] := Nat.digits_ne_nil_iff_ne_zero.mpr h0
    have hd : ∀ d ∈ Nat.digits 10 n, d < 10 :=
      fun d hdm => Nat.digits_lt_base (by norm_num) hdm
    have hrevne : (Nat.digits 10 n).reverse ≠ [] := by
      simpa using hL
    obtain ⟨m, rest, hrev⟩ := List.exists_cons_of_ne_nil hrevne
    have hm : m < 10 := by
      have : m ∈ (Nat.digits 10 n).reverse := by rw [hrev]; simp
      exact hd m (List.mem_reverse.mp this)
    have hval : digitsVal ((Nat.digits 10 n).reverse.map digitChar) = n := by
      unfold digitsVal
      rw [digitsVal_horner _ 0 hd]
      simp [Nat.ofDigits_digits]
    have hdig : ∀ c ∈ (Nat.digits 10 n).reverse.map digitChar, c.isDigit = true := by
      intro c hc
      obtain ⟨e, he, hce⟩ := List.mem_map.mp hc
      exact hce ▸ digitChar_isDigit (hd e (List.mem_reverse.mp he))
    rw [hrev] at hval hdig ⊢
    simp only [List.map_cons] at hval hdig ⊢
    show pyInt ⟨digitChar m :: rest.map digitChar⟩ = some (n : Int)
    unfold pyInt
    simp only [if_neg (digitChar_ne_minus hm), if_neg (digitChar_ne_plus hm)]
    unfold parseDigits
    rw [if_pos]
    · rw [hval]
      simp
    · constructor
      · simp
      · rw [List.all_eq_true]
        intro c hc
        exact hdig c hc

theorem le_foldl_maxStep (files : List String) (acc : Int) :
    acc ≤ files.foldl maxStep acc := by
  induction files generalizing acc with
  | nil => simp
  | cons g t ih =>
    refine le_trans ?_ (ih (maxStep acc g))
    unfold maxStep
    cases pyInt g with
    | none => simp
    | some k => simp

theorem foldl_maxStep_mem (files : List String) (acc : Int) (f : String)
    (k : Int) (hf : f ∈ files) (hk : pyInt f = some k) :
    k ≤ files.foldl maxStep acc := by
  induction files generalizing acc with
  | nil => cases hf
  | cons g t ih =>
    rcases List.mem_cons.mp hf with h | h
    · subst h
      refine le_trans ?_ (le_foldl_maxStep t (maxStep acc f))
      unfold maxStep
      rw [hk]
      simp
    · exact ih (maxStep acc g) h

theorem foldl_maxStep_attained (files : List String) (acc : Int) :
    files.foldl maxStep acc = acc ∨
      ∃ f ∈ files, pyInt f = some (files.foldl maxStep acc) := by
  induction files generalizing acc with
  | nil => left; rfl
  | cons g t ih =>
    rw [List.foldl_cons]
    rcases ih (maxStep acc g) with h | ⟨f, hf, hpy⟩
    · rw [h]
      cases hpy : pyInt g with
      | none => left; simp [maxStep, hpy]
      | some k =>
        rcases le_total k acc with hka | hak
        · left
          simp [maxStep, hpy, max_eq_left hka]
        · right
          exact ⟨g, by simp, by simp [maxStep, hpy, max_eq_right hak]⟩
    · right
      exact ⟨f, List.mem_cons_of_mem g hf, hpy⟩

theorem nextFileNum_nonneg (files : List String) : 0 ≤ nextFileNum files := by
  unfold nextFileNum
  have := le_foldl_maxStep files (-1)
  omega

/-- Claim C3: `save_results` writes to the decimal name `N + 1` where `N` is
the largest integer-parsable filename already present (`-1` when none), so the
new name parses to a value strictly above every parsable name already present,
is distinct from every existing filename, evolves as `0, 1, 2, ...` across
successive runs into the same subfolder, and unparsable filenames are
ignored. -/
theorem save_results_filenames (files : List String) :
    pyInt (newResultName files) = some (nextFileNum files) ∧
    (∀ f ∈ files, ∀ k : Int, pyInt f = some k → k < nextFileNum files) ∧
    (nextFileNum files = 0 ∨ ∃ f ∈ files, pyInt f = some (nextFileNum files - 1)) ∧
    newResultName files ∉ files ∧
    newResultName [] = "0" ∧
    nextFileNum (files ++ [newResultName files]) = nextFileNum files + 1 ∧
    (∀ g, pyInt g = none → nextFileNum (files ++ [g]) = nextFileNum files) := by
  have hnn : 0 ≤ nextFileNum files := nextFileNum_nonneg files
  have hparse : pyInt (newResultName files) = some (nextFileNum files) := by
    unfold newResultName
    rw [pyInt_natStr]
    rw [Int.toNat_of_nonneg hnn]
  have hlt : ∀ f ∈ files, ∀ k : Int, pyInt f = some k → k < nextFileNum files := by
    intro f hf k hk
    have := foldl_maxStep_mem files (-1) f k hf hk
    unfold nextFileNum
    omega
  refine ⟨hparse, hlt, ?_, ?_, ?_, ?_, ?_⟩
  · rcases foldl_maxStep_attained files (-1) with h | ⟨f, hf, hpy⟩
    · left
      unfold nextFileNum
      omega
    · right
      refine ⟨f, hf, ?_⟩
      rw [hpy]
      unfold nextFileNum
      congr 1
      omega
  · intro hmem
    have := hlt _ hmem _ hparse
    omega
  · rfl
  · have hms : maxStep (files.foldl maxStep (-1)) (newResultName files) =
        max (files.foldl maxStep (-1)) (nextFileNum files) := by
      simp [maxStep, hparse]
    have hmax : max (files.foldl maxStep (-1)) (nextFileNum files) = nextFileNum files := by
      apply max_eq_right
      unfold nextFileNum
      omega
    rw [nextFileNum, List.foldl_append]
    simp only [List.foldl_cons, List.foldl_nil]
    rw [hms, hmax]
  · intro g hg
    have hms : maxStep (files.foldl maxStep (-1)) g = files.foldl maxStep (-1) := by
      simp [maxStep, hg]
    rw [nextFileNum, List.foldl_append]
    simp only [List.foldl_cons, List.foldl_nil]
    rw [hms]
    rfl

/-- Witness for C3 at the concrete folder listing `["0", "junk"]`: the next
name parses to the successor of the largest parsable name and is fresh. -/
theorem save_results_filenames_witness :
    pyInt (newResultName ["0", "junk"]) = some (nextFileNum ["0", "junk"]) ∧
    newResultName ["0", "junk"] ∉ ["0", "junk"] :=
  ⟨(save_results_filenames ["0", "junk"]).1,
   (save_results_filenames ["0", "junk"]).2.2.2.1⟩

/-! ## Claim C4: the record saved by `save_results` -/

theorem dictHas_eq_isSome {V : Type} (k : String) (d : List (String × V)) :
    dictHas k d = (dictGet k d).isSome := by
  simp [dictGet, dictHas]

theorem dictGet_filter_ne {V : Type} (k k' : String) (hne : k ≠ k')
    (d : List (String × V)) :
    dictGet k (d.filter (fun p => p.1 ≠ k')) = dictGet k d := by
  induction d with
  | nil => rfl
  | cons a t ih =>
    unfold dictGet at *
    by_cases hk' : a.1 = k'
    · have hak : ¬(a.1 = k) := by
        rw [hk']
        exact fun h => hne h.symm
      rw [List.filter_cons, if_neg (by simp [hk'])]
      rw [List.find?_cons_of_neg _ (by simp [hak])]
      exact ih
    · rw [List.filter_cons, if_pos (by simp [hk'])]
      by_cases hak : a.1 = k
      · rw [List.find?_cons_of_pos _ (by simp [hak]),
          List.find?_cons_of_pos _ (by simp [hak])]
      · rw [List.find?_cons_of_neg _ (by simp [hak]),
          List.find?_cons_of_neg _ (by simp [hak])]
        exact ih

theorem dictGet_filter_self {V : Type} (k : String) (d : List (String × V)) :
    dictGet k (d.filter (fun p => p.1 ≠ k)) = none := by
  unfold dictGet
  rw [List.find?_eq_none.mpr]
  · rfl
  · intro p hp
    have h2 := (List.mem_filter.mp hp).2
    simp at h2 ⊢
    exact h2

theorem dictGet_set_self {V : Type} (k : String) (v : V) (d : List (String × V))
    (h : dictHas k d = true) : dictGet k (dictSet k v d) = some v := by
  induction d with
  | nil => simp [dictHas, dictGet] at h
  | cons a t ih =>
    by_cases hak : a.1 = k
    · show dictGet k ((if a.1 = k then (k, v) else a) :: dictSet k v t) = some v
      rw [if_pos hak]
      unfold dictGet
      rw [List.find?_cons_of_pos _ (by simp)]
      rfl
    · show dictGet k ((if a.1 = k then (k, v) else a) :: dictSet k v t) = some v
      rw [if_neg hak]
      unfold dictGet
      rw [List.find?_cons_of_neg _ (by simp [hak])]
      apply ih
      unfold dictHas at h ⊢
      rwa [List.find?_cons_of_neg _ (by simp [hak])] at h

theorem dictGet_set_ne {V : Type} (k k' : String) (v : V) (hne : k' ≠ k)
    (d : List (String × V)) : dictGet k' (dictSet k v d) = dictGet k' d := by
  induction d with
  | nil => rfl
  | cons a t ih =>
    by_cases hak : a.1 = k
    · show dictGet k' ((if a.1 = k then (k, v) else a) :: dictSet k v t) = _
      rw [if_pos hak]
      unfold dictGet
      rw [List.find?_cons_of_neg _ (by simp [Ne.symm hne]),
        List.find?_cons_of_neg _ (by simp [hak, Ne.symm hne])]
      exact ih
    · show dictGet k' ((if a.1 = k then (k, v) else a) :: dictSet k v t) = _
      rw [if_neg hak]
      unfold dictGet
      by_cases hak' : a.1 = k'
      · rw [List.find?_cons_of_pos _ (by simp [hak']),
          List.find?_cons_of_pos _ (by simp [hak'])]
      · rw [List.find?_cons_of_neg _ (by simp [hak']),
          List.find?_cons_of_neg _ (by simp [hak'])]
        exact ih

/-- Claim C4: the record written by `save_results` equals the input record
with the three dataloader entries removed and the `model` entry replaced by
its string representation, every other entry unchanged.  The transformation
is computed on `results.copy()`, so it is a pure function of the input record
and the caller's record is left as it was. -/
theorem save_results_record_spec {M D J : Type} (strOf : RVal M D J → String)
    (r : List (String × RVal M D J))
    (htr : dictHas "train_dataloader" r = true)
    (hva : dictHas "val_dataloader" r = true)
    (hte : dictHas "test_dataloader" r = true)
    (v : RVal M D J) (hm : dictGet "model" r = some v) :
    ∃ r', resultToSave strOf r = some r' ∧
      dictGet "train_dataloader" r' = none ∧
      dictGet "val_dataloader" r' = none ∧
      dictGet "test_dataloader" r' = none ∧
      dictGet "model" r' = some (RVal.str (strOf v)) ∧
      ∀ k, k ≠ "train_dataloader" → k ≠ "val_dataloader" →
        k ≠ "test_dataloader" → k ≠ "model" → dictGet k r' = dictGet k r := by
  set r1 := r.filter (fun p => p.1 ≠ "train_dataloader") with hr1
  set r2 := r1.filter (fun p => p.1 ≠ "val_dataloader") with hr2
  set r3 := r2.filter (fun p => p.1 ≠ "test_dataloader") with hr3
  have hva1 : dictHas "val_dataloader" r1 = true := by
    rw [dictHas_eq_isSome, hr1, dictGet_filter_ne _ _ (by decide) r,
      ← dictHas_eq_isSome]
    exact hva
  have hte2 : dictHas "test_dataloader" r2 = true := by
    rw [dictHas_eq_isSome, hr2, dictGet_filter_ne _ _ (by decide) r1,
      hr1, dictGet_filter_ne _ _ (by decide) r, ← dictHas_eq_isSome]
    exact hte
  have hm3 : dictGet "model" r3 = some v := by
    rw [hr3, dictGet_filter_ne _ _ (by decide) r2, hr2,
      dictGet_filter_ne _ _ (by decide) r1, hr1,
      dictGet_filter_ne _ _ (by decide) r]
    exact hm
  have hm3has : dictHas "model" r3 = true := by
    rw [dictHas_eq_isSome, hm3]
    rfl
  have hd1 : dictDel "train_dataloader" r = some r1 := by
    unfold dictDel
    rw [if_pos htr]
  have hd2 : dictDel "val_dataloader" r1 = some r2 := by
    unfold dictDel
    rw [if_pos hva1]
  have hd3 : dictDel "test_dataloader" r2 = some r3 := by
    unfold dictDel
    rw [if_pos hte2]
  have hrun : resultToSave strOf r =
      some (dictSet "model" (RVal.str (strOf v)) r3) := by
    unfold resultToSave
    simp only [hd1, hd2, hd3, hm3, Option.bind_eq_bind, Option.some_bind]
    rfl
  refine ⟨dictSet "model" (RVal.str (strOf v)) r3, hrun, ?_, ?_, ?_, ?_, ?_⟩
  · rw [dictGet_set_ne _ _ _ (by decide), hr3,
      dictGet_filter_ne _ _ (by decide) r2, hr2,
      dictGet_filter_ne _ _ (by decide) r1, hr1, dictGet_filter_self]
  · rw [dictGet_set_ne _ _ _ (by decide), hr3,
      dictGet_filter_ne _ _ (by decide) r2, hr2, dictGet_filter_self]
  · rw [dictGet_set_ne _ _ _ (by decide), hr3, dictGet_filter_self]
  · exact dictGet_set_self _ _ _ hm3has
  · intro k hk1 hk2 hk3 hk4
    rw [dictGet_set_ne _ _ _ hk4, hr3, dictGet_filter_ne _ _ hk3 r2, hr2,
      dictGet_filter_ne _ _ hk2 r1, hr1, dictGet_filter_ne _ _ hk1 r]

/-- Witness for C4 at a concrete five-entry record. -/
theorem save_results_record_witness :
    (dictHas "train_dataloader" exampleResults = true ∧
      dictHas "val_dataloader" exampleResults = true ∧
      dictHas "test_dataloader" exampleResults = true ∧
      dictGet "model" exampleResults = some (RVal.model ())) ∧
    (∃ r', resultToSave (fun _ => "ShapeletModel") exampleResults = some r' ∧
      dictGet "train_dataloader" r' = none ∧
      dictGet "val_dataloader" r' = none ∧
      dictGet "test_dataloader" r' = none ∧
      dictGet "model" r' = some (RVal.str "ShapeletModel") ∧
      ∀ k, k ≠ "train_dataloader" → k ≠ "val_dataloader" →
        k ≠ "test_dataloader" → k ≠ "model" →
        dictGet k r' = dictGet k exampleResults) :=
  ⟨⟨rfl, rfl, rfl, rfl⟩,
   save_results_record_spec (fun _ => "ShapeletModel") exampleResults
     rfl rfl rfl (RVal.model ()) rfl⟩

/-! ## Claim C8: `old_shapelets` overrides in `common.main` -/

/-- Claim C8: with `old_shapelets` set, `common.main` overrides the caller's
configuration: the discrepancy function becomes the piecewise-constant
L2-squared closure, `max_shapelet_length_proportion` becomes 0.3, the
pseudometric / learnt-lengths / similarity-regularisation ablations and the
log transform are all disabled, and the model's shapelet lengths are replaced
by an untrainable buffer filled with the maximum shapelet length
`timespan * 0.3`. -/
theorem main_old_shapelets_overrides (times : List ℚ) (num_classes nspc : Nat)
    (nss : Option Nat) (df : String) (mslp : Option ℚ) (ncs : Option Nat)
    (ap al asr : Bool) (sqrtFn : ℚ → ℚ) (initLengths : List ℚ)
    (cfg : ResolvedConfig)
    (hcfg : cfg = resolveMain times num_classes nspc nss df mslp ncs ap al asr
      true sqrtFn initLengths) :
    cfg.discrepancy = some DiscKind.piecewiseL2sq ∧
    cfg.max_shapelet_length_proportion = 0.3 ∧
    cfg.ablation_pseudometric = false ∧
    cfg.ablation_learntlengths = false ∧
    cfg.ablation_similarreg = false ∧
    cfg.log = false ∧
    cfg.max_shapelet_length = (times.getLastD 0 - times.headD 0) * 0.3 ∧
    cfg.lengthsValues =
      List.replicate initLengths.length cfg.max_shapelet_length ∧
    cfg.lengthsTrainable = false := by
  subst hcfg
  refine ⟨?_, rfl, rfl, rfl, rfl, rfl, rfl, rfl, rfl⟩
  show _get_discrepancy_fn "piecewise_constant_L2_squared" false =
    some DiscKind.piecewiseL2sq
  decide

/-- Witness for C8: the overrides at a concrete call (`times = [0, 1, 2]`,
caller asking for `L2`, a proportion of 1, and all ablations on). -/
theorem main_old_shapelets_overrides_witness :
    let cfg := resolveMain [(0 : ℚ), 1, 2] 3 2 (some 7) "L2" (some 1) (some 5)
      true true true true (fun q => q) [(1 : ℚ), 1, 1, 1, 1, 1]
    cfg.discrepancy = some DiscKind.piecewiseL2sq ∧
    cfg.max_shapelet_length_proportion = 0.3 ∧
    cfg.ablation_pseudometric = false ∧
    cfg.ablation_learntlengths = false ∧
    cfg.ablation_similarreg = false ∧
    cfg.log = false ∧
    cfg.max_shapelet_length =
      (([(0 : ℚ), 1, 2]).getLastD 0 - ([(0 : ℚ), 1, 2]).headD 0) * 0.3 ∧
    cfg.lengthsValues =
      List.replicate ([(1 : ℚ), 1, 1, 1, 1, 1]).length cfg.max_shapelet_length ∧
    cfg.lengthsTrainable = false :=
  main_old_shapelets_overrides [(0 : ℚ), 1, 2] 3 2 (some 7) "L2" (some 1)
    (some 5) true true true (fun q => q) [(1 : ℚ), 1, 1, 1, 1, 1]
    (resolveMain [(0 : ℚ), 1, 2] 3 2 (some 7) "L2" (some 1) (some 5)
      true true true true (fun q => q) [(1 : ℚ), 1, 1, 1, 1, 1]) rfl

/-! ## Claim C9: label normalisation in `get_data` -/

section LabelLemmas

variable {L : Type} [DecidableEq L]

theorem foStep_mem {acc : List L} {a : L} (h : a ∈ acc) : foStep acc a = acc := by
  unfold foStep
  rw [if_pos h]

theorem foStep_not_mem {acc : List L} {a : L} (h : a ∉ acc) :
    foStep acc a = acc ++ [a] := by
  unfold foStep
  rw [if_neg h]

theorem firstOccur_cons (a : L) (t : List L) (y : L) :
    firstOccur (a :: t) y = if a = y then 0 else firstOccur t y + 1 := rfl

theorem natPairsFrom_cons (k : Nat) (a : L) (t : List L) :
    natPairsFrom k (a :: t) = (a, k) :: natPairsFrom (k + 1) t := rfl

theorem mem_foldl_foStep (ys : List L) (acc : List L) (y : L) :
    y ∈ ys.foldl foStep acc ↔ y ∈ acc ∨ y ∈ ys := by
  induction ys generalizing acc with
  | nil => simp
  | cons a t ih =>
    rw [List.foldl_cons, ih]
    by_cases ha : a ∈ acc
    · rw [foStep_mem ha]
      constructor
      · rintro (h | h)
        · exact Or.inl h
        · exact Or.inr (by simp [h])
      · rintro (h | h)
        · exact Or.inl h
        · rcases List.mem_cons.mp h with h | h
          · exact Or.inl (h ▸ ha)
          · exact Or.inr h
    · rw [foStep_not_mem ha]
      simp only [List.mem_append, List.mem_singleton, List.mem_cons]
      tauto

theorem nodup_foldl_foStep (ys : List L) (acc : List L) (h : acc.Nodup) :
    (ys.foldl foStep acc).Nodup := by
  induction ys generalizing acc with
  | nil => exact h
  | cons a t ih =>
    rw [List.foldl_cons]
    apply ih
    by_cases ha : a ∈ acc
    · rwa [foStep_mem ha]
    · rw [foStep_not_mem ha]
      simpa [List.nodup_append] using ⟨h, ha⟩

theorem foldl_foStep_suffix (ys : List L) (acc : List L) :
    ∃ ext, ys.foldl foStep acc = acc ++ ext ∧ ∀ e ∈ ext, e ∉ acc := by
  induction ys generalizing acc with
  | nil => exact ⟨[], by simp⟩
  | cons a t ih =>
    rw [List.foldl_cons]
    by_cases ha : a ∈ acc
    · rw [foStep_mem ha]
      exact ih acc
    · rw [foStep_not_mem ha]
      obtain ⟨ext, hext, hnot⟩ := ih (acc ++ [a])
      refine ⟨a :: ext, by rw [hext]; simp, ?_⟩
      intro e he
      rcases List.mem_cons.mp he with h | h
      · exact h ▸ ha
      · intro hacc
        exact hnot e h (by simp [hacc])

theorem firstOccur_lt_length {l : List L} {y : L} (h : y ∈ l) :
    firstOccur l y < l.length := by
  induction l with
  | nil => cases h
  | cons a t ih =>
    rw [firstOccur_cons]
    by_cases hay : a = y
    · rw [if_pos hay]
      simp
    · rw [if_neg hay]
      have hyt : y ∈ t := by
        rcases List.mem_cons.mp h with h' | h'
        · exact absurd h'.symm hay
        · exact h'
      simpa using ih hyt

theorem firstOccur_append_left {l₁ : List L} (l₂ : List L) {y : L} (h : y ∈ l₁) :
    firstOccur (l₁ ++ l₂) y = firstOccur l₁ y := by
  induction l₁ with
  | nil => cases h
  | cons a t ih =>
    show firstOccur (a :: (t ++ l₂)) y = _
    rw [firstOccur_cons, firstOccur_cons]
    by_cases hay : a = y
    · rw [if_pos hay, if_pos hay]
    · have hyt : y ∈ t := by
        rcases List.mem_cons.mp h with h' | h'
        · exact absurd h'.symm hay
        · exact h'
      rw [if_neg hay, if_neg hay, ih hyt]

theorem firstOccur_append_right {l₁ : List L} (l₂ : List L) {y : L} (h : y ∉ l₁) :
    firstOccur (l₁ ++ l₂) y = l₁.length + firstOccur l₂ y := by
  induction l₁ with
  | nil => simp
  | cons a t ih =>
    show firstOccur (a :: (t ++ l₂)) y = _
    rw [firstOccur_cons]
    have hay : ¬(a = y) := fun hc => h (by simp [hc])
    have hyt : y ∉ t := fun hc => h (by simp [hc])
    rw [if_neg hay, ih hyt]
    simp only [List.length_cons]
    omega

theorem firstOccur_inj {l : List L} {y y' : L} (hy : y ∈ l) (hy' : y' ∈ l)
    (h : firstOccur l y = firstOccur l y') : y = y' := by
  induction l with
  | nil => cases hy
  | cons a t ih =>
    rw [firstOccur_cons, firstOccur_cons] at h
    by_cases hay : a = y
    · by_cases hay' : a = y'
      · rw [← hay, ← hay']
      · rw [if_pos hay, if_neg hay'] at h
        omega
    · by_cases hay' : a = y'
      · rw [if_neg hay, if_pos hay'] at h
        omega
      · rw [if_neg hay, if_neg hay'] at h
        have hyt : y ∈ t := by
          rcases List.mem_cons.mp hy with h' | h'
          · exact absurd h'.symm hay
          · exact h'
        have hy't : y' ∈ t := by
          rcases List.mem_cons.mp hy' with h' | h'
          · exact absurd h'.symm hay'
          · exact h'
        exact ih hyt hy't (by omega)

theorem firstOccur_surj (l : List L) (hnd : l.Nodup) (j : Nat) (hj : j < l.length) :
    ∃ y ∈ l, firstOccur l y = j := by
  induction l generalizing j with
  | nil => cases hj
  | cons a t ih =>
    cases j with
    | zero =>
      refine ⟨a, by simp, ?_⟩
      rw [firstOccur_cons, if_pos rfl]
    | succ i =>
      have hi : i < t.length := by simpa using hj
      obtain ⟨y, hyt, hval⟩ := ih (List.nodup_cons.mp hnd).2 i hi
      have hay : ¬(a = y) := fun hc => (List.nodup_cons.mp hnd).1 (hc ▸ hyt)
      refine ⟨y, by simp [hyt], ?_⟩
      rw [firstOccur_cons, if_neg hay]
      omega

theorem foldl_foStep_order (ys : List L) (acc : List L) (y y' : L)
    (hmem : y ∈ ys) (hy : y ∉ acc) (hy' : y' ∉ acc)
    (hlt : firstOccur ys y < firstOccur ys y') :
    firstOccur (ys.foldl foStep acc) y < firstOccur (ys.foldl foStep acc) y' := by
  induction ys generalizing acc with
  | nil => cases hmem
  | cons a t ih =>
    rw [List.foldl_cons]
    by_cases hay : a = y
    · have h0y : firstOccur (a :: t) y = 0 := by
        rw [firstOccur_cons, if_pos hay]
      have hne : y' ≠ a := by
        intro hc
        have h0y' : firstOccur (a :: t) y' = 0 := by
          rw [firstOccur_cons, if_pos hc.symm]
        omega
      have ha : a ∉ acc := fun hc => hy (hay ▸ hc)
      rw [foStep_not_mem ha]
      obtain ⟨ext, hext, hnot⟩ := foldl_foStep_suffix t (acc ++ [a])
      rw [hext]
      have hyfull : y ∈ acc ++ [a] := by
        rw [← hay]
        simp
      have hy'full : y' ∉ acc ++ [a] := by
        simp only [List.mem_append, List.mem_singleton]
        rintro (h | h)
        · exact hy' h
        · exact hne h
      rw [firstOccur_append_left ext hyfull, firstOccur_append_right ext hy'full]
      have := firstOccur_lt_length hyfull
      omega
    · by_cases hay' : a = y'
      · exfalso
        rw [firstOccur_cons, firstOccur_cons, if_neg hay, if_pos hay'] at hlt
        omega
      · have hyt : y ∈ t := by
          rcases List.mem_cons.mp hmem with h' | h'
          · exact absurd h'.symm hay
          · exact h'
        have hys : y ∉ foStep acc a := by
          by_cases ha : a ∈ acc
          · rwa [foStep_mem ha]
          · rw [foStep_not_mem ha]
            simp only [List.mem_append, List.mem_singleton]
            rintro (h | h)
            · exact hy h
            · exact hay h.symm
        have hy's : y' ∉ foStep acc a := by
          by_cases ha : a ∈ acc
          · rwa [foStep_mem ha]
          · rw [foStep_not_mem ha]
            simp only [List.mem_append, List.mem_singleton]
            rintro (h | h)
            · exact hy' h
            · exact hay' h.symm
        have hlt' : firstOccur t y < firstOccur t y' := by
          rw [firstOccur_cons, if_neg hay, firstOccur_cons, if_neg hay'] at hlt
          omega
        exact ih (foStep acc a) hyt hys hy's hlt'

theorem find?_natPairsFrom_isSome (F : List L) (a : L) (k : Nat) :
    ((natPairsFrom k F).find? (fun p => p.1 = a)).isSome = decide (a ∈ F) := by
  induction F generalizing k with
  | nil => simp [natPairsFrom]
  | cons b t ih =>
    rw [natPairsFrom_cons]
    by_cases hba : b = a
    · rw [List.find?_cons_of_pos _ (by simp [hba])]
      simp [hba]
    · rw [List.find?_cons_of_neg _ (by simp [hba])]
      rw [ih (k + 1)]
      simp [List.mem_cons, Ne.symm hba, eq_comm]

theorem find?_natPairsFrom_mem (F : List L) (y : L) (k : Nat) (h : y ∈ F) :
    (natPairsFrom k F).find? (fun p => p.1 = y) = some (y, k + firstOccur F y) := by
  induction F generalizing k with
  | nil => cases h
  | cons b t ih =>
    rw [natPairsFrom_cons]
    by_cases hby : b = y
    · rw [List.find?_cons_of_pos _ (by simp [hby])]
      subst hby
      rw [firstOccur_cons, if_pos rfl]
      rfl
    · rw [List.find?_cons_of_neg _ (by simp [hby])]
      have hyt : y ∈ t := by
        rcases List.mem_cons.mp h with h' | h'
        · exact absurd h'.symm hby
        · exact h'
      rw [ih (k + 1) hyt, firstOccur_cons, if_neg hby]
      congr 2
      omega

theorem natPairsFrom_snoc (k : Nat) (l : List L) (a : L) :
    natPairsFrom k (l ++ [a]) = natPairsFrom k l ++ [(a, k + l.length)] := by
  induction l generalizing k with
  | nil => simp [natPairsFrom]
  | cons b t ih =>
    rw [List.cons_append, natPairsFrom_cons, natPairsFrom_cons, ih (k + 1)]
    simp only [List.cons_append, List.length_cons]
    have : k + 1 + t.length = k + (t.length + 1) := by omega
    rw [this]

theorem labelFold_foldl (ys : List L) (F : List L) :
    ys.foldl lfStep (natPairsFrom 0 F, F.length) =
      (natPairsFrom 0 (ys.foldl foStep F), (ys.foldl foStep F).length) := by
  induction ys generalizing F with
  | nil => rfl
  | cons a t ih =>
    rw [List.foldl_cons, List.foldl_cons]
    by_cases ha : a ∈ F
    · have hstep : lfStep (natPairsFrom 0 F, F.length) a = (natPairsFrom 0 F, F.length) := by
        unfold lfStep
        rw [if_pos (by rw [find?_natPairsFrom_isSome]; simpa using ha)]
      rw [hstep, foStep_mem ha]
      exact ih F
    · have hstep : lfStep (natPairsFrom 0 F, F.length) a =
          (natPairsFrom 0 F ++ [(a, F.length)], F.length + 1) := by
        unfold lfStep
        rw [if_neg (by rw [find?_natPairsFrom_isSome]; simpa using ha)]
      rw [hstep, foStep_not_mem ha]
      have h1 : natPairsFrom 0 F ++ [(a, F.length)] = natPairsFrom 0 (F ++ [a]) := by
        rw [natPairsFrom_snoc]
        simp
      have h2 : F.length + 1 = (F ++ [a]).length := by simp
      rw [h1, h2]
      exact ih (F ++ [a])

theorem labelFold_eq (ys : List L) :
    labelFold ys = (natPairsFrom 0 (firstOrder ys), (firstOrder ys).length) := by
  unfold labelFold firstOrder
  exact labelFold_foldl ys []

theorem lookupLabel_eq (ys : List L) (y : L) (h : y ∈ ys) :
    lookupLabel (labelFold ys).1 y = mapLabel ys y := by
  rw [labelFold_eq]
  unfold lookupLabel mapLabel
  have hyF : y ∈ firstOrder ys := by
    unfold firstOrder
    rw [mem_foldl_foStep]
    exact Or.inr h
  rw [find?_natPairsFrom_mem _ _ _ hyF]
  simp

theorem firstOrder_nodup (ys : List L) : (firstOrder ys).Nodup :=
  nodup_foldl_foStep ys [] List.nodup_nil

theorem mem_firstOrder (ys : List L) (y : L) : y ∈ firstOrder ys ↔ y ∈ ys := by
  unfold firstOrder
  rw [mem_foldl_foStep]
  simp

theorem firstOrder_length (ys : List L) :
    (firstOrder ys).length = ys.toFinset.card := by
  have h1 : (firstOrder ys).toFinset = ys.toFinset := by
    ext x
    simp only [List.mem_toFinset]
    exact mem_firstOrder ys x
  rw [← List.toFinset_card_of_nodup (firstOrder_nodup ys), h1]

end LabelLemmas


/-- Claim C9: the label normalisation of `get_data` maps the concatenated
train and test raw labels to integers forming exactly `{0, ...,
num_classes - 1}` where `num_classes` is the number of distinct raw labels;
the raw-to-integer mapping is injective and respects order of first
appearance, and the assertion fails exactly when `num_classes < 2`. -/
theorem get_data_label_spec {L : Type} [DecidableEq L] (train test : List L) :
    ((∃ e, normaliseLabels (train ++ test) = Except.error e) ↔
      (train ++ test).toFinset.card < 2) ∧
    (∀ mapped c, normaliseLabels (train ++ test) = Except.ok (mapped, c) →
      c = (train ++ test).toFinset.card ∧
      2 ≤ c ∧
      mapped = (train ++ test).map (mapLabel (train ++ test)) ∧
      mapped.toFinset = Finset.range c) ∧
    (∀ y ∈ train ++ test, ∀ y' ∈ train ++ test,
      (mapLabel (train ++ test) y = mapLabel (train ++ test) y' → y = y') ∧
      (firstOccur (train ++ test) y < firstOccur (train ++ test) y' →
        mapLabel (train ++ test) y < mapLabel (train ++ test) y')) := by
  set ys := train ++ test with hys
  have hcnt : (labelFold ys).2 = ys.toFinset.card := by
    rw [labelFold_eq]
    exact firstOrder_length ys
  have hFlen : (firstOrder ys).length = ys.toFinset.card := firstOrder_length ys
  refine ⟨?_, ?_, ?_⟩
  · constructor
    · rintro ⟨e, he⟩
      unfold normaliseLabels at he
      by_cases hc : (labelFold ys).2 < 2
      · omega
      · rw [if_neg hc] at he
        simp at he
    · intro hlt
      refine ⟨"Have only so few classes.", ?_⟩
      unfold normaliseLabels
      rw [if_pos (by omega)]
  · intro mapped c hok
    unfold normaliseLabels at hok
    by_cases hc : (labelFold ys).2 < 2
    · rw [if_pos hc] at hok
      simp at hok
    · rw [if_neg hc] at hok
      injection hok with hok
      have hm : ys.map (lookupLabel (labelFold ys).1) = mapped := congrArg Prod.fst hok
      have hcc : (labelFold ys).2 = c := congrArg Prod.snd hok
      have hmap : mapped = ys.map (mapLabel ys) := by
        rw [← hm]
        apply List.map_congr_left
        intro y hy
        exact lookupLabel_eq ys y hy
      have hcF : c = (firstOrder ys).length := by omega
      refine ⟨by omega, by omega, hmap, ?_⟩
      have hbound : ∀ v ∈ mapped, v < c := by
        rw [hmap]
        intro v hv
        obtain ⟨y, hy, rfl⟩ := List.mem_map.mp hv
        have hyF : y ∈ firstOrder ys := (mem_firstOrder ys y).mpr hy
        have := firstOccur_lt_length hyF
        unfold mapLabel
        omega
      have hsurj : ∀ j, j < c → j ∈ mapped := by
        intro j hj
        have hjF : j < (firstOrder ys).length := by omega
        obtain ⟨y, hyF, hval⟩ :=
          firstOccur_surj (firstOrder ys) (firstOrder_nodup ys) j hjF
        have hyys : y ∈ ys := (mem_firstOrder ys y).mp hyF
        rw [hmap]
        exact List.mem_map.mpr ⟨y, hyys, hval⟩
      ext x
      simp only [List.mem_toFinset, Finset.mem_range]
      exact ⟨fun hx => hbound x hx, fun hx => hsurj x hx⟩
  · intro y hy y' hy'
    constructor
    · intro heq
      have hyF : y ∈ firstOrder ys := (mem_firstOrder ys y).mpr hy
      have hy'F : y' ∈ firstOrder ys := (mem_firstOrder ys y').mpr hy'
      exact firstOccur_inj hyF hy'F heq
    · intro hlt
      unfold mapLabel firstOrder
      exact foldl_foStep_order ys [] y y' hy (by simp) (by simp) hlt

/-- Witness for C9 at the concrete raw labels `train = ["b"]`,
`test = ["a", "b"]`: the result is `[0, 1, 0]` with two classes. -/
theorem get_data_label_spec_witness :
    normaliseLabels (["b"] ++ ["a", "b"]) = Except.ok ([0, 1, 0], 2) ∧
    (2 = ((["b"] : List String) ++ ["a", "b"]).toFinset.card ∧
      2 ≤ 2 ∧
      ([0, 1, 0] : List Nat) =
        (["b"] ++ ["a", "b"]).map (mapLabel (["b"] ++ ["a", "b"])) ∧
      ([0, 1, 0] : List Nat).toFinset = Finset.range 2) :=
  ⟨rfl, (get_data_label_spec ["b"] ["a", "b"]).2.1 [0, 1, 0] 2 rfl⟩

/-! ## Claim C1: `_get_sample_batch` -/

section SampleBatchLemmas

variable {α : Type}

theorem runPass_nil (nspc ns : Nat) (st : SBState α) :
    runPass nspc ns ([] : List (α × Nat)) st = Sum.inl st := rfl

theorem countLabel_append (e : List (α × Nat)) (x : α) (y l : Nat) :
    countLabel (e ++ [(x, y)]) l =
      countLabel e l + (if y = l then 1 else 0) := by
  unfold countLabel
  rw [List.filter_append, List.length_append]
  by_cases hyl : y = l <;> simp [hyl]

theorem mem_insertKey (ks : List Nat) (y l : Nat) :
    l ∈ insertKey ks y ↔ l ∈ ks ∨ l = y := by
  unfold insertKey
  by_cases hy : y ∈ ks
  · rw [if_pos hy]
    constructor
    · exact Or.inl
    · rintro (h | h)
      · exact h
      · exact h ▸ hy
  · rw [if_neg hy]
    simp

theorem insertKey_nodup (ks : List Nat) (y : Nat) (h : ks.Nodup) :
    (insertKey ks y).Nodup := by
  unfold insertKey
  by_cases hy : y ∈ ks
  · rwa [if_pos hy]
  · rw [if_neg hy]
    simpa [List.nodup_append] using ⟨h, hy⟩

theorem insertKey_of_mem (ks : List Nat) (y : Nat) (h : y ∈ ks) :
    insertKey ks y = ks := by
  unfold insertKey
  rw [if_pos h]

theorem runPass_cons' (nspc ns : Nat) (x : α) (y : Nat) (rest : List (α × Nat))
    (st : SBState α) :
    runPass nspc ns ((x, y) :: rest) st =
      (if (passStep nspc st x y).elems.length = ns then
        Sum.inr (passStep nspc st x y).elems
      else runPass nspc ns rest (passStep nspc st x y)) := rfl

theorem passStep_counts (nspc : Nat) (st : SBState α) (x : α) (y : Nat)
    (h : ∀ l, countLabel st.elems l ≤ nspc) :
    ∀ l, countLabel (passStep nspc st x y).elems l ≤ nspc := by
  intro l
  unfold passStep
  by_cases hc : countLabel st.elems y < nspc
  · rw [if_pos hc]
    show countLabel (st.elems ++ [(x, y)]) l ≤ nspc
    rw [countLabel_append]
    by_cases hyl : y = l
    · rw [if_pos hyl]
      subst hyl
      omega
    · rw [if_neg hyl]
      simpa using h l
  · rw [if_neg hc]
    exact h l

theorem passStep_len (nspc : Nat) (st : SBState α) (x : α) (y : Nat) :
    (passStep nspc st x y).elems.length = st.elems.length ∨
      (passStep nspc st x y).elems.length = st.elems.length + 1 := by
  unfold passStep
  by_cases hc : countLabel st.elems y < nspc
  · rw [if_pos hc]
    right
    simp
  · rw [if_neg hc]
    left
    rfl

theorem runPass_inr_length (nspc ns : Nat) :
    ∀ (data : List (α × Nat)) (st : SBState α) (b : List (α × Nat)),
      runPass nspc ns data st = Sum.inr b → b.length = ns := by
  intro data
  induction data with
  | nil =>
    intro st b h
    rw [runPass_nil] at h
    cases h
  | cons p rest ih =>
    intro st b h
    obtain ⟨x, y⟩ := p
    rw [runPass_cons'] at h
    by_cases hl : (passStep nspc st x y).elems.length = ns
    · rw [if_pos hl] at h
      cases h
      exact hl
    · rw [if_neg hl] at h
      exact ih _ b h

theorem runPass_inr_counts (nspc ns : Nat) :
    ∀ (data : List (α × Nat)) (st : SBState α) (b : List (α × Nat)),
      (∀ l, countLabel st.elems l ≤ nspc) →
      runPass nspc ns data st = Sum.inr b → ∀ l, countLabel b l ≤ nspc := by
  intro data
  induction data with
  | nil =>
    intro st b _ h
    rw [runPass_nil] at h
    cases h
  | cons p rest ih =>
    intro st b hcnt h
    obtain ⟨x, y⟩ := p
    rw [runPass_cons'] at h
    by_cases hl : (passStep nspc st x y).elems.length = ns
    · rw [if_pos hl] at h
      cases h
      exact passStep_counts nspc st x y hcnt
    · rw [if_neg hl] at h
      exact ih _ b (passStep_counts nspc st x y hcnt) h

theorem runPass_inl_counts (nspc ns : Nat) :
    ∀ (data : List (α × Nat)) (st st' : SBState α),
      (∀ l, countLabel st.elems l ≤ nspc) →
      runPass nspc ns data st = Sum.inl st' →
      ∀ l, countLabel st'.elems l ≤ nspc := by
  intro data
  induction data with
  | nil =>
    intro st st' hcnt h
    rw [runPass_nil] at h
    cases h
    exact hcnt
  | cons p rest ih =>
    intro st st' hcnt h
    obtain ⟨x, y⟩ := p
    rw [runPass_cons'] at h
    by_cases hl : (passStep nspc st x y).elems.length = ns
    · rw [if_pos hl] at h
      cases h
    · rw [if_neg hl] at h
      exact ih _ st' (passStep_counts nspc st x y hcnt) h

theorem runPass_inl_len_lt (nspc ns : Nat) :
    ∀ (data : List (α × Nat)) (st st' : SBState α),
      st.elems.length < ns →
      runPass nspc ns data st = Sum.inl st' → st'.elems.length < ns := by
  intro data
  induction data with
  | nil =>
    intro st st' hlt h
    rw [runPass_nil] at h
    cases h
    exact hlt
  | cons p rest ih =>
    intro st st' hlt h
    obtain ⟨x, y⟩ := p
    rw [runPass_cons'] at h
    by_cases hl : (passStep nspc st x y).elems.length = ns
    · rw [if_pos hl] at h
      cases h
    · rw [if_neg hl] at h
      have := passStep_len nspc st x y
      exact ih _ st' (by omega) h

theorem runPass_inl_len_mono (nspc ns : Nat) :
    ∀ (data : List (α × Nat)) (st st' : SBState α),
      runPass nspc ns data st = Sum.inl st' →
      st.elems.length ≤ st'.elems.length := by
  intro data
  induction data with
  | nil =>
    intro st st' h
    rw [runPass_nil] at h
    cases h
    exact le_refl _
  | cons p rest ih =>
    intro st st' h
    obtain ⟨x, y⟩ := p
    rw [runPass_cons'] at h
    by_cases hl : (passStep nspc st x y).elems.length = ns
    · rw [if_pos hl] at h
      cases h
    · rw [if_neg hl] at h
      have := passStep_len nspc st x y
      have := ih _ st' h
      omega

theorem runPass_inl_static (nspc ns : Nat) :
    ∀ (data : List (α × Nat)) (st st' : SBState α),
      runPass nspc ns data st = Sum.inl st' →
      st'.elems.length = st.elems.length →
      st'.elems = st.elems ∧ ∀ p ∈ data, ¬(countLabel st.elems p.2 < nspc) := by
  intro data
  induction data with
  | nil =>
    intro st st' h _
    rw [runPass_nil] at h
    cases h
    exact ⟨rfl, by simp⟩
  | cons p rest ih =>
    intro st st' h hlen
    obtain ⟨x, y⟩ := p
    rw [runPass_cons'] at h
    by_cases hl : (passStep nspc st x y).elems.length = ns
    · rw [if_pos hl] at h
      cases h
    · rw [if_neg hl] at h
      by_cases hc : countLabel st.elems y < nspc
      · exfalso
        have hstep : (passStep nspc st x y).elems = st.elems ++ [(x, y)] := by
          unfold passStep
          rw [if_pos hc]
        have h1 : (passStep nspc st x y).elems.length = st.elems.length + 1 := by
          rw [hstep]
          simp
        have h2 := runPass_inl_len_mono nspc ns rest _ st' h
        omega
      · have hstep : passStep nspc st x y = ⟨st.elems, insertKey st.keys y⟩ := by
          unfold passStep
          rw [if_neg hc]
        rw [hstep] at h
        have hlen' : st'.elems.length =
            (⟨st.elems, insertKey st.keys y⟩ : SBState α).elems.length := hlen
        obtain ⟨heq, hrest⟩ := ih _ st' h hlen'
        refine ⟨heq, ?_⟩
        intro q hq
        rcases List.mem_cons.mp hq with h' | h'
        · rw [h']
          exact hc
        · exact hrest q h'

theorem runPass_inl_keys (nspc ns : Nat) :
    ∀ (data : List (α × Nat)) (st st' : SBState α),
      runPass nspc ns data st = Sum.inl st' →
      ∀ l, l ∈ st'.keys ↔ l ∈ st.keys ∨ l ∈ data.map Prod.snd := by
  intro data
  induction data with
  | nil =>
    intro st st' h l
    rw [runPass_nil] at h
    cases h
    simp
  | cons p rest ih =>
    intro st st' h l
    obtain ⟨x, y⟩ := p
    rw [runPass_cons'] at h
    by_cases hl : (passStep nspc st x y).elems.length = ns
    · rw [if_pos hl] at h
      cases h
    · rw [if_neg hl] at h
      have hkeys : (passStep nspc st x y).keys = insertKey st.keys y := by
        unfold passStep
        by_cases hc : countLabel st.elems y < nspc
        · rw [if_pos hc]
        · rw [if_neg hc]
      rw [ih _ st' h l, hkeys, mem_insertKey]
      simp only [List.map_cons, List.mem_cons]
      tauto

theorem runPass_inl_keys_nodup (nspc ns : Nat) :
    ∀ (data : List (α × Nat)) (st st' : SBState α),
      st.keys.Nodup →
      runPass nspc ns data st = Sum.inl st' → st'.keys.Nodup := by
  intro data
  induction data with
  | nil =>
    intro st st' hnd h
    rw [runPass_nil] at h
    cases h
    exact hnd
  | cons p rest ih =>
    intro st st' hnd h
    obtain ⟨x, y⟩ := p
    rw [runPass_cons'] at h
    by_cases hl : (passStep nspc st x y).elems.length = ns
    · rw [if_pos hl] at h
      cases h
    · rw [if_neg hl] at h
      have hkeys : (passStep nspc st x y).keys = insertKey st.keys y := by
        unfold passStep
        by_cases hc : countLabel st.elems y < nspc
        · rw [if_pos hc]
        · rw [if_neg hc]
      apply ih _ st' _ h
      rw [hkeys]
      exact insertKey_nodup _ _ hnd

theorem runPass_inl_elemkeys (nspc ns : Nat) :
    ∀ (data : List (α × Nat)) (st st' : SBState α),
      (∀ p ∈ st.elems, p.2 ∈ st.keys) →
      runPass nspc ns data st = Sum.inl st' →
      ∀ p ∈ st'.elems, p.2 ∈ st'.keys := by
  intro data
  induction data with
  | nil =>
    intro st st' hek h
    rw [runPass_nil] at h
    cases h
    exact hek
  | cons q rest ih =>
    intro st st' hek h
    obtain ⟨x, y⟩ := q
    rw [runPass_cons'] at h
    by_cases hl : (passStep nspc st x y).elems.length = ns
    · rw [if_pos hl] at h
      cases h
    · rw [if_neg hl] at h
      apply ih _ st' _ h
      intro p hp
      unfold passStep at hp ⊢
      by_cases hc : countLabel st.elems y < nspc
      · rw [if_pos hc] at hp ⊢
        simp only at hp ⊢
        rw [mem_insertKey]
        rcases List.mem_append.mp hp with h' | h'
        · exact Or.inl (hek p h')
        · right
          rcases List.mem_singleton.mp h' with h''
          rw [h'']
      · rw [if_neg hc] at hp ⊢
        simp only at hp ⊢
        rw [mem_insertKey]
        exact Or.inl (hek p hp)

theorem runPass_inl_keys_stable (nspc ns : Nat) :
    ∀ (data : List (α × Nat)) (st st' : SBState α),
      (∀ l ∈ data.map Prod.snd, l ∈ st.keys) →
      runPass nspc ns data st = Sum.inl st' → st'.keys = st.keys := by
  intro data
  induction data with
  | nil =>
    intro st st' _ h
    rw [runPass_nil] at h
    cases h
    rfl
  | cons q rest ih =>
    intro st st' hfull h
    obtain ⟨x, y⟩ := q
    rw [runPass_cons'] at h
    by_cases hl : (passStep nspc st x y).elems.length = ns
    · rw [if_pos hl] at h
      cases h
    · rw [if_neg hl] at h
      have hy : y ∈ st.keys := hfull y (by simp)
      have hkeys : (passStep nspc st x y).keys = st.keys := by
        unfold passStep
        by_cases hc : countLabel st.elems y < nspc
        · rw [if_pos hc]
          exact insertKey_of_mem _ _ hy
        · rw [if_neg hc]
          exact insertKey_of_mem _ _ hy
      rw [← hkeys]
      apply ih _ st' _ h
      intro l hlm
      rw [hkeys]
      exact hfull l (by simp [hlm])

theorem runPass_inl_grow (nspc ns : Nat) (data : List (α × Nat))
    (st st' : SBState α) (x : α) (y : Nat) (hmem : (x, y) ∈ data)
    (hc : countLabel st.elems y < nspc)
    (h : runPass nspc ns data st = Sum.inl st') :
    st.elems.length < st'.elems.length := by
  have hmono := runPass_inl_len_mono nspc ns data st st' h
  rcases Nat.lt_or_ge st.elems.length st'.elems.length with hlt | hge
  · exact hlt
  · exfalso
    have heq : st'.elems.length = st.elems.length := by omega
    obtain ⟨_, hall⟩ := runPass_inl_static nspc ns data st st' h heq
    exact hall (x, y) hmem hc

theorem countLabel_eq_count (e : List (α × Nat)) (l : Nat) :
    countLabel e l = (e.map Prod.snd).count l := by
  induction e with
  | nil => rfl
  | cons p t ih =>
    unfold countLabel at ih ⊢
    rw [List.map_cons, List.count_cons]
    by_cases hpl : p.2 = l
    · rw [List.filter_cons_of_pos (by simpa using hpl)]
      have hb : (p.2 == l) = true := by simpa using hpl
      rw [if_pos hb]
      simp only [List.length_cons]
      omega
    · rw [List.filter_cons_of_neg (by simpa using hpl)]
      have hb : ¬((p.2 == l) = true) := by simpa using hpl
      rw [if_neg hb]
      omega

theorem sample_pigeonhole (nspc : Nat) (elems : List (α × Nat)) (keys : List Nat)
    (hnd : keys.Nodup) (hsupp : ∀ p ∈ elems, p.2 ∈ keys)
    (hlen : elems.length < keys.length * nspc) :
    ∃ l ∈ keys, countLabel elems l < nspc := by
  by_contra hcon
  push_neg at hcon
  have hsub : (elems.map Prod.snd).toFinset ⊆ keys.toFinset := by
    intro a ha
    rw [List.mem_toFinset] at ha
    rw [List.mem_toFinset]
    obtain ⟨p, hp, hpa⟩ := List.mem_map.mp ha
    exact hpa ▸ hsupp p hp
  have hsum : ∑ a ∈ keys.toFinset, (elems.map Prod.snd).count a = elems.length := by
    have h1 := Multiset.toFinset_sum_count_eq
      ((elems.map Prod.snd : List Nat) : Multiset Nat)
    have h1' : ∑ a ∈ (elems.map Prod.snd).toFinset, (elems.map Prod.snd).count a
        = elems.length := by
      calc ∑ a ∈ (elems.map Prod.snd).toFinset, (elems.map Prod.snd).count a
          = ∑ a ∈ (elems.map Prod.snd).toFinset,
              Multiset.count a ((elems.map Prod.snd : List Nat) : Multiset Nat) := by
            apply Finset.sum_congr rfl
            intro a _
            rw [Multiset.coe_count]
        _ = Multiset.card ((elems.map Prod.snd : List Nat) : Multiset Nat) := h1
        _ = elems.length := by rw [Multiset.coe_card, List.length_map]
    rw [← h1']
    symm
    apply Finset.sum_subset hsub
    intro a _ ha
    rw [List.mem_toFinset] at ha
    exact List.count_eq_zero.mpr ha
  have hge : ∀ a ∈ keys.toFinset, nspc ≤ (elems.map Prod.snd).count a := by
    intro a ha
    rw [List.mem_toFinset] at ha
    have hc := hcon a ha
    rwa [countLabel_eq_count] at hc
  have hbig : keys.toFinset.card • nspc ≤
      ∑ a ∈ keys.toFinset, (elems.map Prod.snd).count a :=
    Finset.card_nsmul_le_sum _ _ _ hge
  rw [List.toFinset_card_of_nodup hnd, smul_eq_mul] at hbig
  omega

theorem sampleBatchAux_succ (nspc ns : Nat) (data : List (α × Nat)) (fuel : Nat)
    (st : SBState α) :
    sampleBatchAux nspc ns data (fuel + 1) st =
      match runPass nspc ns data st with
      | Sum.inr batch => some (Except.ok batch)
      | Sum.inl st' =>
        if st'.keys.length * nspc ≠ ns then some (Except.error ())
        else sampleBatchAux nspc ns data fuel st' := rfl

theorem sampleBatchAux_succ_inr {nspc ns : Nat} {data : List (α × Nat)}
    {fuel : Nat} {st : SBState α} {b : List (α × Nat)}
    (h : runPass nspc ns data st = Sum.inr b) :
    sampleBatchAux nspc ns data (fuel + 1) st = some (Except.ok b) := by
  rw [sampleBatchAux_succ, h]

theorem sampleBatchAux_succ_inl {nspc ns : Nat} {data : List (α × Nat)}
    {fuel : Nat} {st st' : SBState α}
    (h : runPass nspc ns data st = Sum.inl st') :
    sampleBatchAux nspc ns data (fuel + 1) st =
      (if st'.keys.length * nspc ≠ ns then some (Except.error ())
       else sampleBatchAux nspc ns data fuel st') := by
  rw [sampleBatchAux_succ, h]

theorem sampleBatchAux_ok_props (nspc ns : Nat) (data : List (α × Nat)) :
    ∀ (fuel : Nat) (st : SBState α) (b : List (α × Nat)),
      (∀ l, countLabel st.elems l ≤ nspc) →
      sampleBatchAux nspc ns data fuel st = some (Except.ok b) →
      b.length = ns ∧ ∀ l, countLabel b l ≤ nspc := by
  intro fuel
  induction fuel with
  | zero =>
    intro st b _ h
    simp [sampleBatchAux] at h
  | succ f ih =>
    intro st b hcnt h
    cases hrp : runPass nspc ns data st with
    | inr b' =>
      rw [sampleBatchAux_succ_inr hrp] at h
      simp only [Option.some.injEq, Except.ok.injEq] at h
      subst h
      exact ⟨runPass_inr_length nspc ns data st b' hrp,
        runPass_inr_counts nspc ns data st b' hcnt hrp⟩
    | inl st' =>
      rw [sampleBatchAux_succ_inl hrp] at h
      by_cases hchk : st'.keys.length * nspc ≠ ns
      · rw [if_pos hchk] at h
        simp at h
      · rw [if_neg hchk] at h
        exact ih st' b (runPass_inl_counts nspc ns data st st' hcnt hrp) h

theorem sampleBatchAux_ok_total (nspc ns : Nat) (data : List (α × Nat)) :
    ∀ (fuel : Nat) (st : SBState α),
      st.elems.length < ns →
      (∀ l, countLabel st.elems l ≤ nspc) →
      (∀ p ∈ st.elems, p.2 ∈ st.keys) →
      st.keys.Nodup →
      (∀ l, l ∈ st.keys ↔ l ∈ data.map Prod.snd) →
      st.keys.length * nspc = ns →
      ns - st.elems.length ≤ fuel →
      ∃ b, sampleBatchAux nspc ns data fuel st = some (Except.ok b) := by
  intro fuel
  induction fuel with
  | zero =>
    intro st hlen _ _ _ _ _ hfuel
    omega
  | succ f ih =>
    intro st hlen hcnt hek hnd hkeys hchk hfuel
    cases hrp : runPass nspc ns data st with
    | inr b =>
      exact ⟨b, sampleBatchAux_succ_inr hrp⟩
    | inl st' =>
      have hfull : ∀ l ∈ data.map Prod.snd, l ∈ st.keys := fun l hl => (hkeys l).mpr hl
      have hst'keys : st'.keys = st.keys :=
        runPass_inl_keys_stable nspc ns data st st' hfull hrp
      have hchk' : ¬(st'.keys.length * nspc ≠ ns) := by
        rw [hst'keys]
        omega
      obtain ⟨l, hlk, hlc⟩ := sample_pigeonhole nspc st.elems st.keys hnd hek (by omega)
      have hld : l ∈ data.map Prod.snd := (hkeys l).mp hlk
      obtain ⟨p, hp, hpl⟩ := List.mem_map.mp hld
      have hpc : countLabel st.elems p.2 < nspc := by
        rw [hpl]
        exact hlc
      have hgrow : st.elems.length < st'.elems.length := by
        apply runPass_inl_grow nspc ns data st st' p.1 p.2 _ hpc hrp
        simpa using hp
      have hlen' : st'.elems.length < ns :=
        runPass_inl_len_lt nspc ns data st st' hlen hrp
      have hcnt' : ∀ l, countLabel st'.elems l ≤ nspc :=
        runPass_inl_counts nspc ns data st st' hcnt hrp
      have hek' : ∀ p ∈ st'.elems, p.2 ∈ st'.keys :=
        runPass_inl_elemkeys nspc ns data st st' hek hrp
      have hnd' : st'.keys.Nodup := by
        rw [hst'keys]
        exact hnd
      have hkeys' : ∀ l, l ∈ st'.keys ↔ l ∈ data.map Prod.snd := by
        simp only [hst'keys]
        exact hkeys
      have hchk2 : st'.keys.length * nspc = ns := by
        rw [hst'keys]
        exact hchk
      obtain ⟨b, hb⟩ := ih st' hlen' hcnt' hek' hnd' hkeys' hchk2 (by omega)
      refine ⟨b, ?_⟩
      rw [sampleBatchAux_succ_inl hrp, if_neg hchk']
      exact hb

theorem first_pass_keys_len (nspc ns : Nat) (data : List (α × Nat))
    (st' : SBState α) (h : runPass nspc ns data ⟨[], []⟩ = Sum.inl st') :
    st'.keys.length = (data.map Prod.snd).dedup.length := by
  have hmem : ∀ l, l ∈ st'.keys ↔ l ∈ data.map Prod.snd := by
    intro l
    rw [runPass_inl_keys nspc ns data _ st' h l]
    simp
  have hnd : st'.keys.Nodup :=
    runPass_inl_keys_nodup nspc ns data _ st' List.nodup_nil h
  have h1 : st'.keys.toFinset = (data.map Prod.snd).toFinset := by
    ext a
    rw [List.mem_toFinset, List.mem_toFinset, hmem]
  calc st'.keys.length = st'.keys.toFinset.card :=
        (List.toFinset_card_of_nodup hnd).symm
    _ = (data.map Prod.snd).toFinset.card := by rw [h1]
    _ = (data.map Prod.snd).dedup.toFinset.card := by
        congr 1
        ext a
        simp [List.mem_dedup]
    _ = (data.map Prod.snd).dedup.length :=
        List.toFinset_card_of_nodup (List.nodup_dedup _)

end SampleBatchLemmas

/-- Claim C1: `_get_sample_batch` raises its `RuntimeError` exactly when the
first full pass over the dataloader completes without an early return and the
number of distinct class labels seen times `num_shapelets_per_class` differs
from `num_shapelets`; otherwise it returns a batch of exactly `num_shapelets`
samples containing at most `num_shapelets_per_class` samples of each class
(the additive noise of line 57 does not change the batch's size or the class
multiplicities). -/
theorem get_sample_batch_spec {α : Type} (data : List (α × Nat)) (nspc ns : Nat)
    (hns : 0 < ns) :
    (_get_sample_batch data nspc ns = some (Except.error ()) ↔
      (runPass nspc ns data ⟨[], []⟩).isLeft = true ∧
        (data.map Prod.snd).dedup.length * nspc ≠ ns) ∧
    (∀ b, _get_sample_batch data nspc ns = some (Except.ok b) →
      b.length = ns ∧ ∀ l, countLabel b l ≤ nspc) ∧
    (¬((runPass nspc ns data ⟨[], []⟩).isLeft = true ∧
        (data.map Prod.snd).dedup.length * nspc ≠ ns) →
      ∃ b, _get_sample_batch data nspc ns = some (Except.ok b)) := by
  have hcnt0 : ∀ l, countLabel ([] : List (α × Nat)) l ≤ nspc := by
    intro l
    simp [countLabel]
  have hprops : ∀ b, _get_sample_batch data nspc ns = some (Except.ok b) →
      b.length = ns ∧ ∀ l, countLabel b l ≤ nspc := by
    intro b h
    exact sampleBatchAux_ok_props nspc ns data (ns + 1) ⟨[], []⟩ b hcnt0 h
  cases hrp : runPass nspc ns data ⟨[], []⟩ with
  | inr b0 =>
    have hrun : _get_sample_batch data nspc ns = some (Except.ok b0) := by
      unfold _get_sample_batch
      exact sampleBatchAux_succ_inr hrp
    refine ⟨⟨?_, ?_⟩, hprops, fun _ => ⟨b0, hrun⟩⟩
    · intro h
      rw [hrun] at h
      simp at h
    · rintro ⟨hl, _⟩
      simp at hl
  | inl st' =>
    have hklen := first_pass_keys_len nspc ns data st' hrp
    by_cases hne : (data.map Prod.snd).dedup.length * nspc ≠ ns
    · have hrun : _get_sample_batch data nspc ns = some (Except.error ()) := by
        unfold _get_sample_batch
        rw [sampleBatchAux_succ_inl hrp, if_pos (by rw [hklen]; exact hne)]
      refine ⟨⟨fun _ => ⟨rfl, hne⟩, fun _ => hrun⟩, hprops, ?_⟩
      intro hnot
      exfalso
      exact hnot ⟨rfl, hne⟩
    · have hchk' : ¬(st'.keys.length * nspc ≠ ns) := by
        rw [hklen]
        exact hne
      have hlen' : st'.elems.length < ns :=
        runPass_inl_len_lt nspc ns data _ st' (by simpa using hns) hrp
      have hcnt' : ∀ l, countLabel st'.elems l ≤ nspc :=
        runPass_inl_counts nspc ns data _ st' hcnt0 hrp
      have hek' : ∀ p ∈ st'.elems, p.2 ∈ st'.keys :=
        runPass_inl_elemkeys nspc ns data _ st' (by simp) hrp
      have hnd' : st'.keys.Nodup :=
        runPass_inl_keys_nodup nspc ns data _ st' List.nodup_nil hrp
      have hkeys' : ∀ l, l ∈ st'.keys ↔ l ∈ data.map Prod.snd := by
        intro l
        rw [runPass_inl_keys nspc ns data _ st' hrp l]
        simp
      obtain ⟨b, hb⟩ := sampleBatchAux_ok_total nspc ns data ns st' hlen' hcnt'
        hek' hnd' hkeys' (by rw [hklen]; exact not_not.mp hne) (by omega)
      have hrun : _get_sample_batch data nspc ns = some (Except.ok b) := by
        unfold _get_sample_batch
        rw [sampleBatchAux_succ_inl hrp, if_neg hchk']
        exact hb
      refine ⟨⟨?_, ?_⟩, hprops, fun _ => ⟨b, hrun⟩⟩
      · intro h
        rw [hrun] at h
        simp at h
      · rintro ⟨_, hcon⟩
        exact absurd hcon hne

/-- Witness for C1: two samples with labels 0 and 1, one shapelet per class,
two shapelets in total — the batch is returned and satisfies the size and
per-class bounds. -/
theorem get_sample_batch_spec_witness :
    0 < 2 ∧
    (∃ b, _get_sample_batch [((10 : Int), 0), ((20 : Int), 1)] 1 2 =
      some (Except.ok b)) :=
  ⟨by decide,
   (get_sample_batch_spec [((10 : Int), 0), ((20 : Int), 1)] 1 2
     (by decide)).2.2 (by decide)⟩

/-! ## Claims C2 and C5: `_train_loop` -/

section TrainLoopLemmas

variable {W P : Type} (ts : W → W) (m : W → ℚ × ℚ) (sc : ℚ → W → W) (sn : W → P)

theorem epochStep_breaking {epochs : Nat} {st : TrainState W P} {e : Nat}
    (h : st.breaking = true) : epochStep ts m sc sn epochs st e = st := by
  unfold epochStep
  rw [if_pos h]

theorem epochStep_noeval {epochs : Nat} {st : TrainState W P} {e : Nat}
    (h : st.breaking = false) (he : isEvalEpoch epochs e = false) :
    epochStep ts m sc sn epochs st e =
      { st with world := ts st.world, executed := st.executed + 1 } := by
  unfold epochStep
  rw [if_neg (by simp [h]), if_neg (by simp [he])]

theorem epochStep_eval {epochs : Nat} {st : TrainState W P} {e : Nat}
    (h : st.breaking = false) (he : isEvalEpoch epochs e = true) :
    epochStep ts m sc sn epochs st e =
      { world := sc (m (ts st.world)).2 (ts st.world)
        best := if st.bestValAcc < (m (ts st.world)).2 then some (sn (ts st.world))
          else st.best
        bestValAcc := if st.bestValAcc < (m (ts st.world)).2 then (m (ts st.world)).2
          else st.bestValAcc
        bestTrainLoss := if lossImproved (m (ts st.world)).1 st.bestTrainLoss then
          some (m (ts st.world)).1 else st.bestTrainLoss
        bestEpoch := if lossImproved (m (ts st.world)).1 st.bestTrainLoss then e
          else st.bestEpoch
        breaking := decide ((if lossImproved (m (ts st.world)).1 st.bestTrainLoss then e
          else st.bestEpoch) + 50 < e)
        executed := st.executed + 1
        hist := st.hist ++
          [⟨e, (m (ts st.world)).1, (m (ts st.world)).2, sn (ts st.world)⟩] } := by
  unfold epochStep
  rw [if_neg (by simp [h]), if_pos he]

theorem bestOfHist_snoc (h : List (EvalEntry P)) (en : EvalEntry P) :
    bestOfHist (h ++ [en]) =
      (if lossImproved en.trainLoss (bestOfHist h).1 then (some en.trainLoss, en.epoch)
       else bestOfHist h) := by
  unfold bestOfHist
  rw [List.foldl_append]
  rfl

theorem stopAt_snoc (h : List (EvalEntry P)) (en : EvalEntry P) :
    stopAt (h ++ [en]) ↔
      stopAt h ∨ (bestOfHist (h ++ [en])).2 + 50 < en.epoch := by
  constructor
  · rintro ⟨k, hk, hcond⟩
    rcases Nat.lt_or_ge k h.length with hkh | hkh
    · left
      refine ⟨k, hkh, ?_⟩
      have htake : (h ++ [en]).take (k + 1) = h.take (k + 1) :=
        List.take_append_of_le_length (by omega)
      have hget : (h ++ [en]).get ⟨k, hk⟩ = h.get ⟨k, hkh⟩ := by
        simp only [List.get_eq_getElem]
        exact List.getElem_append_left (by omega)
      rw [htake, hget] at hcond
      exact hcond
    · right
      have hkeq : k = h.length := by
        have := hk
        simp only [List.length_append, List.length_singleton] at this
        omega
      subst hkeq
      have htake : (h ++ [en]).take (h.length + 1) = h ++ [en] := by
        apply List.take_of_length_le
        simp
      have hget : (h ++ [en]).get ⟨h.length, hk⟩ = en := by
        simp only [List.get_eq_getElem]
        exact List.getElem_concat_length h en h.length rfl (by simp)
      rw [htake, hget] at hcond
      exact hcond
  · rintro (⟨k, hk, hcond⟩ | hcond)
    · refine ⟨k, by simp only [List.length_append, List.length_singleton]; omega, ?_⟩
      have htake : (h ++ [en]).take (k + 1) = h.take (k + 1) :=
        List.take_append_of_le_length (by omega)
      have hget : (h ++ [en]).get ⟨k, by simp; omega⟩ = h.get ⟨k, hk⟩ := by
        simp only [List.get_eq_getElem]
        exact List.getElem_append_left (by omega)
      rw [htake, hget]
      exact hcond
    · refine ⟨h.length, by simp, ?_⟩
      have htake : (h ++ [en]).take (h.length + 1) = h ++ [en] := by
        apply List.take_of_length_le
        simp
      have hget : (h ++ [en]).get ⟨h.length, by simp⟩ = en := by
        simp only [List.get_eq_getElem]
        exact List.getElem_concat_length h en h.length rfl (by simp)
      rw [htake, hget]
      exact hcond

theorem epochStep_inv {epochs : Nat} {st : TrainState W P} (e : Nat)
    (hinv : TrainInv epochs st) :
    TrainInv epochs (epochStep ts m sc sn epochs st e) := by
  obtain ⟨h1, h2, h3, h4, h5, h6, h7⟩ := hinv
  cases hbr : st.breaking with
  | true =>
    rw [epochStep_breaking ts m sc sn hbr]
    exact ⟨h1, h2, h3, h4, h5, h6, h7⟩
  | false =>
    cases hev : isEvalEpoch epochs e with
    | false =>
      rw [epochStep_noeval ts m sc sn hbr hev]
      exact ⟨h1, h2, h3, h4, h5, h6, h7⟩
    | true =>
      rw [epochStep_eval ts m sc sn hbr hev]
      set w := ts st.world with hw
      set tl := (m w).1 with htl
      set va := (m w).2 with hva
      set en : EvalEntry P := ⟨e, tl, va, sn w⟩ with hen
      have hsnoc : bestOfHist (st.hist ++ [en]) =
          (if lossImproved tl st.bestTrainLoss then (some tl, e)
           else (st.bestTrainLoss, st.bestEpoch)) := by
        rw [bestOfHist_snoc, ← h1]
      refine ⟨?_, ?_, ?_, ?_, ?_, ?_, ?_⟩
      · simp only []
        rw [hsnoc]
        by_cases hc : lossImproved tl st.bestTrainLoss
        · rw [if_pos hc, if_pos hc, if_pos hc]
        · rw [if_neg hc, if_neg hc, if_neg hc]
      · simp only []
        rw [stopAt_snoc, hsnoc]
        have hnostop : ¬stopAt st.hist := by
          rw [← h2, hbr]
          simp
        constructor
        · intro hdec
          right
          have := of_decide_eq_true hdec
          by_cases hc : lossImproved tl st.bestTrainLoss
          · rw [if_pos hc] at this ⊢
            exact this
          · rw [if_neg hc] at this ⊢
            exact this
        · rintro (hstop | hcond)
          · exact absurd hstop hnostop
          · apply decide_eq_true
            by_cases hc : lossImproved tl st.bestTrainLoss
            · rw [if_pos hc] at hcond ⊢
              exact hcond
            · rw [if_neg hc] at hcond ⊢
              exact hcond
      · simp only []
        intro hnone
        by_cases hc : st.bestValAcc < va
        · rw [if_pos hc] at hnone
          cases hnone
        · rw [if_neg hc] at hnone
          rw [if_neg hc]
          obtain ⟨hbv, hall⟩ := h3 hnone
          refine ⟨hbv, ?_⟩
          intro en' hen'
          rcases List.mem_append.mp hen' with h' | h'
          · exact hall en' h'
          · rcases List.mem_singleton.mp h' with rfl
            show va ≤ 0
            rw [← hbv]
            exact le_of_not_lt hc
      · simp only []
        intro p hp
        by_cases hc : st.bestValAcc < va
        · rw [if_pos hc] at hp
          rw [if_pos hc]
          injection hp with hp
          refine ⟨lt_of_le_of_lt h6 hc, en, by simp, rfl, hp⟩
        · rw [if_neg hc] at hp
          rw [if_neg hc]
          obtain ⟨hbv, en', hen', hva', hsn'⟩ := h4 p hp
          exact ⟨hbv, en', List.mem_append_left _ hen', hva', hsn'⟩
      · simp only []
        intro en' hen'
        by_cases hc : st.bestValAcc < va
        · rw [if_pos hc]
          rcases List.mem_append.mp hen' with h' | h'
          · exact le_of_lt (lt_of_le_of_lt (h5 en' h') hc)
          · rcases List.mem_singleton.mp h' with rfl
            exact le_refl _
        · rw [if_neg hc]
          rcases List.mem_append.mp hen' with h' | h'
          · exact h5 en' h'
          · rcases List.mem_singleton.mp h' with rfl
            exact le_of_not_lt hc
      · simp only []
        by_cases hc : st.bestValAcc < va
        · rw [if_pos hc]
          exact le_trans h6 (le_of_lt hc)
        · rw [if_neg hc]
          exact h6
      · simp only []
        intro en' hen'
        rcases List.mem_append.mp hen' with h' | h'
        · exact h7 en' h'
        · rcases List.mem_singleton.mp h' with rfl
          exact hev

theorem foldl_epochStep_inv {epochs : Nat} :
    ∀ (es : List Nat) (st : TrainState W P), TrainInv epochs st →
      TrainInv epochs (es.foldl (epochStep ts m sc sn epochs) st) := by
  intro es
  induction es with
  | nil => intro st h; exact h
  | cons e rest ih =>
    intro st h
    rw [List.foldl_cons]
    exact ih _ (epochStep_inv ts m sc sn e h)

theorem initTrainState_inv (epochs : Nat) (w0 : W) :
    TrainInv epochs (initTrainState w0 : TrainState W P) := by
  refine ⟨rfl, ?_, ?_, ?_, ?_, ?_, ?_⟩
  · constructor
    · intro h
      cases h
    · rintro ⟨k, hk, _⟩
      simp [initTrainState] at hk
  · intro _
    exact ⟨rfl, by simp [initTrainState]⟩
  · intro p hp
    cases hp
  · simp [initTrainState]
  · exact le_refl _
  · simp [initTrainState]

theorem trainLoopRun_inv (epochs : Nat) (w0 : W) :
    TrainInv epochs (trainLoopRun ts m sc sn epochs w0) :=
  foldl_epochStep_inv ts m sc sn _ _ (initTrainState_inv epochs w0)

theorem foldl_epochStep_stable {epochs : Nat} :
    ∀ (es : List Nat) (st : TrainState W P), st.breaking = true →
      es.foldl (epochStep ts m sc sn epochs) st = st := by
  intro es
  induction es with
  | nil => intro st _; rfl
  | cons e rest ih =>
    intro st h
    rw [List.foldl_cons, epochStep_breaking ts m sc sn h]
    exact ih st h

theorem foldl_epochStep_executed_le (epochs : Nat) :
    ∀ (es : List Nat) (st : TrainState W P),
      (es.foldl (epochStep ts m sc sn epochs) st).executed ≤
        st.executed + es.length := by
  intro es
  induction es with
  | nil => intro st; simp
  | cons e rest ih =>
    intro st
    rw [List.foldl_cons]
    have hstep : (epochStep ts m sc sn epochs st e).executed ≤ st.executed + 1 := by
      cases hbr : st.breaking with
      | true => rw [epochStep_breaking ts m sc sn hbr]; omega
      | false =>
        cases hev : isEvalEpoch epochs e with
        | false => rw [epochStep_noeval ts m sc sn hbr hev]
        | true => rw [epochStep_eval ts m sc sn hbr hev]
    have := ih (epochStep ts m sc sn epochs st e)
    simp only [List.length_cons]
    omega

theorem foldl_epochStep_executed_full (epochs : Nat) :
    ∀ (es : List Nat) (st : TrainState W P),
      (es.foldl (epochStep ts m sc sn epochs) st).breaking = false →
      (es.foldl (epochStep ts m sc sn epochs) st).executed =
        st.executed + es.length := by
  intro es
  induction es with
  | nil => intro st _; simp
  | cons e rest ih =>
    intro st hfin
    rw [List.foldl_cons] at hfin ⊢
    cases hbr : st.breaking with
    | true =>
      exfalso
      rw [epochStep_breaking ts m sc sn hbr,
        foldl_epochStep_stable ts m sc sn rest st hbr] at hfin
      rw [hbr] at hfin
      cases hfin
    | false =>
      have hexe : (epochStep ts m sc sn epochs st e).executed = st.executed + 1 := by
        cases hev : isEvalEpoch epochs e with
        | false => rw [epochStep_noeval ts m sc sn hbr hev]
        | true => rw [epochStep_eval ts m sc sn hbr hev]
      have := ih (epochStep ts m sc sn epochs st e) hfin
      simp only [List.length_cons]
      omega

end TrainLoopLemmas

/-- Claim C2: when `_train_loop` returns, the model holds the parameters of
the deep-copied snapshot taken at an evaluation epoch achieving the maximum
validation accuracy observed (metrics are evaluated at every tenth epoch and
at the final epoch); when validation accuracy never exceeded 0, `best_model`
still aliases `model` and the final-epoch parameters are kept. -/
theorem train_loop_best_model {W P : Type} (ts : W → W) (m : W → ℚ × ℚ)
    (sc : ℚ → W → W) (sn : W → P) (epochs : Nat) (w0 : W) :
    (∀ en ∈ (trainLoopRun ts m sc sn epochs w0).hist,
      en.epoch % 10 = 0 ∨ en.epoch = epochs - 1) ∧
    ((∃ en ∈ (trainLoopRun ts m sc sn epochs w0).hist,
        0 < en.valAcc ∧
        (∀ en' ∈ (trainLoopRun ts m sc sn epochs w0).hist,
          en'.valAcc ≤ en.valAcc) ∧
        trainLoopResult ts m sc sn epochs w0 = en.snap) ∨
      ((∀ en ∈ (trainLoopRun ts m sc sn epochs w0).hist, en.valAcc ≤ 0) ∧
        trainLoopResult ts m sc sn epochs w0 =
          sn (trainLoopRun ts m sc sn epochs w0).world)) := by
  obtain ⟨h1, h2, h3, h4, h5, h6, h7⟩ := trainLoopRun_inv ts m sc sn epochs w0
  constructor
  · intro en hen
    have hev := h7 en hen
    simp [isEvalEpoch] at hev
    exact hev
  · cases hbest : (trainLoopRun ts m sc sn epochs w0).best with
    | none =>
      right
      obtain ⟨hbv, hall⟩ := h3 hbest
      refine ⟨hall, ?_⟩
      show ((trainLoopRun ts m sc sn epochs w0).best.getD
        (sn (trainLoopRun ts m sc sn epochs w0).world)) = _
      rw [hbest]
      rfl
    | some p =>
      left
      obtain ⟨hbv, en, hen, hva, hsn⟩ := h4 p hbest
      refine ⟨en, hen, by rw [hva]; exact hbv, ?_, ?_⟩
      · intro en' hen'
        rw [hva]
        exact h5 en' hen'
      · show ((trainLoopRun ts m sc sn epochs w0).best.getD
          (sn (trainLoopRun ts m sc sn epochs w0).world)) = _
        rw [hbest]
        show p = en.snap
        rw [hsn]

/-- Witness for C2 at a concrete run (`W = P = ℚ`, three epochs, strictly
increasing validation accuracy): the best snapshot is the final one. -/
theorem train_loop_best_model_witness :
    (∀ en ∈ (trainLoopRun (fun w => w + 1) (fun w => ((1 : ℚ), w))
        (fun _ w => w) (fun w => w) 3 (0 : ℚ)).hist,
      en.epoch % 10 = 0 ∨ en.epoch = 3 - 1) ∧
    ((∃ en ∈ (trainLoopRun (fun w => w + 1) (fun w => ((1 : ℚ), w))
        (fun _ w => w) (fun w => w) 3 (0 : ℚ)).hist,
        0 < en.valAcc ∧
        (∀ en' ∈ (trainLoopRun (fun w => w + 1) (fun w => ((1 : ℚ), w))
          (fun _ w => w) (fun w => w) 3 (0 : ℚ)).hist,
          en'.valAcc ≤ en.valAcc) ∧
        trainLoopResult (fun w => w + 1) (fun w => ((1 : ℚ), w))
          (fun _ w => w) (fun w => w) 3 (0 : ℚ) = en.snap) ∨
      ((∀ en ∈ (trainLoopRun (fun w => w + 1) (fun w => ((1 : ℚ), w))
          (fun _ w => w) (fun w => w) 3 (0 : ℚ)).hist, en.valAcc ≤ 0) ∧
        trainLoopResult (fun w => w + 1) (fun w => ((1 : ℚ), w))
          (fun _ w => w) (fun w => w) 3 (0 : ℚ) =
          (trainLoopRun (fun w => w + 1) (fun w => ((1 : ℚ), w))
            (fun _ w => w) (fun w => w) 3 (0 : ℚ)).world)) :=
  train_loop_best_model (fun w => w + 1) (fun w => ((1 : ℚ), w))
    (fun _ w => w) (fun w => w) 3 (0 : ℚ)

theorem ce_noeval_step (e : Nat) (he : isEvalEpoch 62 e = false) (x : Nat)
    (btl : Option ℚ) (be : Nat) (h : List (EvalEntry Unit)) :
    constLossStep (ceState x btl be false h) e = ceState (x + 1) btl be false h := by
  simp [constLossStep, epochStep, ceState, he]

theorem ce_break_step (e x : Nat) (btl : Option ℚ) (be : Nat)
    (h : List (EvalEntry Unit)) :
    constLossStep (ceState x btl be true h) e = ceState x btl be true h := by
  simp [constLossStep, epochStep, ceState]

theorem lossImproved_one_one : lossImproved 1 (some (1 : ℚ)) = false := by
  unfold lossImproved
  exact decide_eq_false (by norm_num)

theorem ce_eval_step (e : Nat) (he : isEvalEpoch 62 e = true) (x be : Nat)
    (h : List (EvalEntry Unit)) :
    constLossStep (ceState x (some 1) be false h) e =
      ceState (x + 1) (some 1) be (decide (be + 50 < e))
        (h ++ [⟨e, 1, 0, ()⟩]) := by
  simp [constLossStep, epochStep, ceState, constLossMetrics, he,
    lossImproved_one_one]

theorem ce_eval0_step (x : Nat) :
    constLossStep (ceState x none 0 false []) 0 =
      ceState (x + 1) (some 1) 0 false [⟨0, 1, 0, ()⟩] := by
  simp [constLossStep, epochStep, ceState, constLossMetrics, lossImproved,
    show isEvalEpoch 62 0 = true from by decide]

theorem ce_noeval_block :
    ∀ (k s : Nat), (∀ e ∈ List.range' s k, isEvalEpoch 62 e = false) →
    ∀ (x : Nat) (btl : Option ℚ) (be : Nat) (h : List (EvalEntry Unit)),
      (List.range' s k).foldl constLossStep (ceState x btl be false h) =
        ceState (x + k) btl be false h := by
  intro k
  induction k with
  | zero =>
    intro s _ x btl be h
    rfl
  | succ n ih =>
    intro s hne x btl be h
    rw [List.range'_succ, List.foldl_cons,
      ce_noeval_step s (hne s (by rw [List.mem_range'_1]; omega)) x btl be h,
      ih (s + 1) (fun e he => hne e (by rw [List.mem_range'_1] at he ⊢; omega))
        (x + 1) btl be h]
    have hx : x + 1 + n = x + (n + 1) := by omega
    rw [hx]

theorem claimEarlyStopAux_cons_none {P : Type} (bE : Nat) (en : EvalEntry P)
    (rest : List (EvalEntry P)) :
    claimEarlyStopAux none bE (en :: rest) =
      (decide (en.epoch + 50 < en.epoch) ||
        claimEarlyStopAux (some en.trainLoss) en.epoch rest) := rfl

theorem claimEarlyStopAux_cons_some {P : Type} (m0 : ℚ) (bE : Nat)
    (en : EvalEntry P) (rest : List (EvalEntry P)) :
    claimEarlyStopAux (some m0) bE (en :: rest) =
      (decide ((if decide (en.trainLoss < 1.0001 * m0) then en.epoch else bE)
        + 50 < en.epoch) ||
        claimEarlyStopAux (some (min m0 en.trainLoss))
          (if decide (en.trainLoss < 1.0001 * m0) then en.epoch else bE)
          rest) := rfl

/-- Under the claim's reading of the plateau test, a constantly-1 training
loss updates `best_epoch` at every evaluation epoch (since `1 < 1.0001 * 1`),
so the claimed stop condition never fires. -/
theorem claimEarly_constloss :
    ∀ (h : List (EvalEntry Unit)), (∀ en ∈ h, en.trainLoss = 1) →
    ∀ bE, claimEarlyStopAux (some 1) bE h = false := by
  intro h
  induction h with
  | nil =>
    intro _ bE
    rfl
  | cons en rest ih =>
    intro hall bE
    have htl : en.trainLoss = 1 := hall en (by simp)
    rw [claimEarlyStopAux_cons_some, htl]
    have himpr : decide ((1 : ℚ) < 1.0001 * 1) = true := decide_eq_true (by norm_num)
    rw [himpr]
    simp only [if_true]
    rw [decide_eq_false (by omega : ¬(en.epoch + 50 < en.epoch)), Bool.false_or,
      min_self]
    exact ih (fun en' h' => hall en' (List.mem_cons_of_mem _ h')) en.epoch

/-- Counterexample to claim C5 as stated: with a constant training loss of 1
over 62 epochs, `_train_loop` stops early (it breaks at evaluation epoch 60
and executes only 61 of the 62 epochs), yet under the claim's reading of the
plateau test — the training loss falling below `1.0001` times the best
training loss seen so far, which a constant loss satisfies at every
evaluation epoch — `best_epoch` tracks every evaluation epoch and the
claimed early-termination condition `e > best_epoch + 50` never holds. -/
theorem train_loop_stopping_claim_counterexample :
    constLossRun.breaking = true ∧
    constLossRun.executed = 61 ∧
    claimEarlyStop constLossRun.hist = false := by
  have hdecomp : List.range 62 =
      [0] ++ (List.range' 1 9 ++ ([10] ++ (List.range' 11 9 ++ ([20] ++
        (List.range' 21 9 ++ ([30] ++ (List.range' 31 9 ++ ([40] ++
        (List.range' 41 9 ++ ([50] ++ (List.range' 51 9 ++
        ([60] ++ [61])))))))))))) := by decide
  have hfinal : constLossRun = ceState 61 (some 1) 0 true
      [⟨0, 1, 0, ()⟩, ⟨10, 1, 0, ()⟩, ⟨20, 1, 0, ()⟩, ⟨30, 1, 0, ()⟩,
       ⟨40, 1, 0, ()⟩, ⟨50, 1, 0, ()⟩, ⟨60, 1, 0, ()⟩] := by
    show (List.range 62).foldl constLossStep (ceState 0 none 0 false []) = _
    rw [hdecomp]
    rw [List.foldl_append]
    rw [show ([0] : List Nat).foldl constLossStep (ceState 0 none 0 false []) =
      ceState 1 (some 1) 0 false [⟨0, 1, 0, ()⟩] from ce_eval0_step 0]
    rw [List.foldl_append, ce_noeval_block 9 1 (by decide)]
    rw [List.foldl_append]
    rw [show ([10] : List Nat).foldl constLossStep
        (ceState 10 (some 1) 0 false [⟨0, 1, 0, ()⟩]) =
      ceState 11 (some 1) 0 (decide (0 + 50 < 10))
        ([⟨0, 1, 0, ()⟩] ++ [⟨10, 1, 0, ()⟩]) from ce_eval_step 10 (by decide) 10 0 _]
    rw [show (decide (0 + 50 < 10)) = false from by decide]
    rw [List.foldl_append, ce_noeval_block 9 11 (by decide)]
    rw [List.foldl_append]
    rw [show ([20] : List Nat).foldl constLossStep
        (ceState 20 (some 1) 0 false ([⟨0, 1, 0, ()⟩] ++ [⟨10, 1, 0, ()⟩])) =
      ceState 21 (some 1) 0 (decide (0 + 50 < 20))
        (([⟨0, 1, 0, ()⟩] ++ [⟨10, 1, 0, ()⟩]) ++ [⟨20, 1, 0, ()⟩]) from
      ce_eval_step 20 (by decide) 20 0 _]
    rw [show (decide (0 + 50 < 20)) = false from by decide]
    rw [List.foldl_append, ce_noeval_block 9 21 (by decide)]
    rw [List.foldl_append]
    rw [show ([30] : List Nat).foldl constLossStep
        (ceState 30 (some 1) 0 false
          (([⟨0, 1, 0, ()⟩] ++ [⟨10, 1, 0, ()⟩]) ++ [⟨20, 1, 0, ()⟩])) =
      ceState 31 (some 1) 0 (decide (0 + 50 < 30))
        ((([⟨0, 1, 0, ()⟩] ++ [⟨10, 1, 0, ()⟩]) ++ [⟨20, 1, 0, ()⟩]) ++
          [⟨30, 1, 0, ()⟩]) from ce_eval_step 30 (by decide) 30 0 _]
    rw [show (decide (0 + 50 < 30)) = false from by decide]
    rw [List.foldl_append, ce_noeval_block 9 31 (by decide)]
    rw [List.foldl_append]
    rw [show ([40] : List Nat).foldl constLossStep
        (ceState 40 (some 1) 0 false
          ((([⟨0, 1, 0, ()⟩] ++ [⟨10, 1, 0, ()⟩]) ++ [⟨20, 1, 0, ()⟩]) ++
            [⟨30, 1, 0, ()⟩])) =
      ceState 41 (some 1) 0 (decide (0 + 50 < 40))
        (((([⟨0, 1, 0, ()⟩] ++ [⟨10, 1, 0, ()⟩]) ++ [⟨20, 1, 0, ()⟩]) ++
          [⟨30, 1, 0, ()⟩]) ++ [⟨40, 1, 0, ()⟩]) from
      ce_eval_step 40 (by decide) 40 0 _]
    rw [show (decide (0 + 50 < 40)) = false from by decide]
    rw [List.foldl_append, ce_noeval_block 9 41 (by decide)]
    rw [List.foldl_append]
    rw [show ([50] : List Nat).foldl constLossStep
        (ceState 50 (some 1) 0 false
          (((([⟨0, 1, 0, ()⟩] ++ [⟨10, 1, 0, ()⟩]) ++ [⟨20, 1, 0, ()⟩]) ++
            [⟨30, 1, 0, ()⟩]) ++ [⟨40, 1, 0, ()⟩])) =
      ceState 51 (some 1) 0 (decide (0 + 50 < 50))
        ((((([⟨0, 1, 0, ()⟩] ++ [⟨10, 1, 0, ()⟩]) ++ [⟨20, 1, 0, ()⟩]) ++
          [⟨30, 1, 0, ()⟩]) ++ [⟨40, 1, 0, ()⟩]) ++ [⟨50, 1, 0, ()⟩]) from
      ce_eval_step 50 (by decide) 50 0 _]
    rw [show (decide (0 + 50 < 50)) = false from by decide]
    rw [List.foldl_append, ce_noeval_block 9 51 (by decide)]
    rw [List.foldl_append]
    rw [show ([60] : List Nat).foldl constLossStep
        (ceState 60 (some 1) 0 false
          ((((([⟨0, 1, 0, ()⟩] ++ [⟨10, 1, 0, ()⟩]) ++ [⟨20, 1, 0, ()⟩]) ++
            [⟨30, 1, 0, ()⟩]) ++ [⟨40, 1, 0, ()⟩]) ++ [⟨50, 1, 0, ()⟩])) =
      ceState 61 (some 1) 0 (decide (0 + 50 < 60))
        (((((([⟨0, 1, 0, ()⟩] ++ [⟨10, 1, 0, ()⟩]) ++ [⟨20, 1, 0, ()⟩]) ++
          [⟨30, 1, 0, ()⟩]) ++ [⟨40, 1, 0, ()⟩]) ++ [⟨50, 1, 0, ()⟩]) ++
          [⟨60, 1, 0, ()⟩]) from ce_eval_step 60 (by decide) 60 0 _]
    rw [show (decide (0 + 50 < 60)) = true from by decide]
    rw [show ([61] : List Nat).foldl constLossStep
        (ceState 61 (some 1) 0 true
          (((((([⟨0, 1, 0, ()⟩] ++ [⟨10, 1, 0, ()⟩]) ++ [⟨20, 1, 0, ()⟩]) ++
            [⟨30, 1, 0, ()⟩]) ++ [⟨40, 1, 0, ()⟩]) ++ [⟨50, 1, 0, ()⟩]) ++
            [⟨60, 1, 0, ()⟩])) =
      ceState 61 (some 1) 0 true
        (((((([⟨0, 1, 0, ()⟩] ++ [⟨10, 1, 0, ()⟩]) ++ [⟨20, 1, 0, ()⟩]) ++
          [⟨30, 1, 0, ()⟩]) ++ [⟨40, 1, 0, ()⟩]) ++ [⟨50, 1, 0, ()⟩]) ++
          [⟨60, 1, 0, ()⟩]) from ce_break_step 61 61 (some 1) 0 _]
    rfl
  refine ⟨by rw [hfinal]; rfl, by rw [hfinal]; rfl, ?_⟩
  rw [hfinal]
  show claimEarlyStopAux none 0
    [⟨0, 1, 0, ()⟩, ⟨10, 1, 0, ()⟩, ⟨20, 1, 0, ()⟩, ⟨30, 1, 0, ()⟩,
     ⟨40, 1, 0, ()⟩, ⟨50, 1, 0, ()⟩, ⟨60, 1, 0, ()⟩] = false
  rw [claimEarlyStopAux_cons_none]
  rw [show (decide ((0 : Nat) + 50 < 0)) = false from by decide, Bool.false_or]
  show claimEarlyStopAux (some 1) 0 _ = false
  apply claimEarly_constloss
  intro en hen
  fin_cases hen <;> rfl


/-- Claim C5 (amended): `_train_loop` executes at most `epochs` epochs; its
stop flag is raised exactly when some metric-evaluation epoch `e` satisfied
`e > best_epoch + 50`, where `best_epoch` is the most recent evaluation epoch
at which `1.0001` times the training loss fell below the best training loss
seen so far (the code's comparison, `loss * 1.0001 < best_train_loss`); any
early termination — fewer than `epochs` executed epochs — arises from that
flag, and the loop always terminates. -/
theorem train_loop_stopping {W P : Type} (ts : W → W) (m : W → ℚ × ℚ)
    (sc : ℚ → W → W) (sn : W → P) (epochs : Nat) (w0 : W) :
    (trainLoopRun ts m sc sn epochs w0).executed ≤ epochs ∧
    ((trainLoopRun ts m sc sn epochs w0).breaking = true ↔
      stopAt (trainLoopRun ts m sc sn epochs w0).hist) ∧
    ((trainLoopRun ts m sc sn epochs w0).executed < epochs →
      (trainLoopRun ts m sc sn epochs w0).breaking = true) := by
  obtain ⟨_, h2, _⟩ := trainLoopRun_inv ts m sc sn epochs w0
  have hle : (trainLoopRun ts m sc sn epochs w0).executed ≤ epochs := by
    have h := foldl_epochStep_executed_le ts m sc sn epochs
      (List.range epochs) (initTrainState w0)
    have h0 : (initTrainState w0 : TrainState W P).executed = 0 := rfl
    rw [h0, List.length_range] at h
    unfold trainLoopRun
    omega
  refine ⟨hle, h2, ?_⟩
  intro hlt
  cases hb : (trainLoopRun ts m sc sn epochs w0).breaking with
  | true => rfl
  | false =>
    exfalso
    have hb' : ((List.range epochs).foldl (epochStep ts m sc sn epochs)
        (initTrainState w0)).breaking = false := hb
    have hfull := foldl_epochStep_executed_full ts m sc sn epochs
      (List.range epochs) (initTrainState w0) hb'
    unfold trainLoopRun at hlt
    rw [hfull] at hlt
    have h0 : (initTrainState w0 : TrainState W P).executed = 0 := rfl
    rw [h0, List.length_range] at hlt
    omega

/-- Witness for C5 at the counterexample run: the loop executed 61 of 62
epochs, and the stop flag reflects the declarative condition. -/
theorem train_loop_stopping_witness :
    (trainLoopRun (fun w => w) (fun _ => ((1 : ℚ), (0 : ℚ)))
      (fun _ w => w) (fun w => w) 62 (0 : ℚ)).executed ≤ 62 ∧
    ((trainLoopRun (fun w => w) (fun _ => ((1 : ℚ), (0 : ℚ)))
      (fun _ w => w) (fun w => w) 62 (0 : ℚ)).breaking = true ↔
      stopAt (trainLoopRun (fun w => w) (fun _ => ((1 : ℚ), (0 : ℚ)))
        (fun _ w => w) (fun w => w) 62 (0 : ℚ)).hist) ∧
    ((trainLoopRun (fun w => w) (fun _ => ((1 : ℚ), (0 : ℚ)))
      (fun _ w => w) (fun w => w) 62 (0 : ℚ)).executed < 62 →
      (trainLoopRun (fun w => w) (fun _ => ((1 : ℚ), (0 : ℚ)))
        (fun _ w => w) (fun w => w) 62 (0 : ℚ)).breaking = true) :=
  train_loop_stopping (fun w => w) (fun _ => ((1 : ℚ), (0 : ℚ)))
    (fun _ w => w) (fun w => w) 62 (0 : ℚ)

/-! ## Claim C6: the missing-data interpolation pass in `get_data` -/

section MissingnessLemmas

theorem forall₂_append_of {α β : Type} {R : α → β → Prop} :
    ∀ {l₁ u₁ : List α} {l₂ u₂ : List β}, List.Forall₂ R l₁ l₂ →
      List.Forall₂ R u₁ u₂ → List.Forall₂ R (l₁ ++ u₁) (l₂ ++ u₂) := by
  intro l₁ u₁ l₂ u₂ h1 h2
  induction h1 with
  | nil => exact h2
  | cons hh _ ih => exact List.Forall₂.cons hh ih

theorem isPrevFree_unique {removed : List Nat} {r p p' : Nat}
    (h : isPrevFree removed r p) (h' : isPrevFree removed r p') : p = p' := by
  obtain ⟨hlt, hnm, hbet⟩ := h
  obtain ⟨hlt', hnm', hbet'⟩ := h'
  rcases Nat.lt_trichotomy p p' with hc | hc | hc
  · exact absurd (hbet p' hc hlt') hnm'
  · exact hc
  · exact absurd (hbet' p hc hlt) hnm

theorem isNextFree_unique {removed : List Nat} {r n n' : Nat}
    (h : isNextFree removed r n) (h' : isNextFree removed r n') : n = n' := by
  obtain ⟨hlt, hnm, hbet⟩ := h
  obtain ⟨hlt', hnm', hbet'⟩ := h'
  rcases Nat.lt_trichotomy n n' with hc | hc | hc
  · exact absurd (hbet' n hlt hc) hnm
  · exact hc
  · exact absurd (hbet n' hlt' hc) hnm'

theorem prevScan_correct :
    ∀ (rest pre : List Nat) (pu pr : Nat) (S : List Nat),
      S = pre ++ pr :: rest → S.Pairwise (· < ·) → isPrevFree S pr pu →
      List.Forall₂ (fun r p => isPrevFree S r p) rest (prevScan pu pr rest) := by
  intro rest
  induction rest with
  | nil =>
    intro pre pu pr S _ _ _
    exact List.Forall₂.nil
  | cons r rest' ih =>
    intro pre pu pr S hS hpw hfree
    have hpr_lt : pr < r := by
      have := hpw
      rw [hS, List.pairwise_append] at this
      have h2 := this.2.1
      exact (List.pairwise_cons.mp h2).1 r (by simp)
    have hnomid : ∀ j ∈ S, ¬(pr < j ∧ j < r) := by
      intro j hj ⟨hj1, hj2⟩
      rw [hS] at hj
      have hpw' := hpw
      rw [hS, List.pairwise_append] at hpw'
      rcases List.mem_append.mp hj with hj | hj
      · have := hpw'.2.2 j hj pr (by simp)
        omega
      · rcases List.mem_cons.mp hj with rfl | hj
        · omega
        · rcases List.mem_cons.mp hj with rfl | hj
          · omega
          · have h2 := hpw'.2.1
            have := (List.pairwise_cons.mp (List.pairwise_cons.mp h2).2).1 j hj
            omega
    have hfree' : isPrevFree S r (if pr ≠ r - 1 then r - 1 else pu) := by
      by_cases hc : pr ≠ r - 1
      · rw [if_pos hc]
        refine ⟨by omega, ?_, ?_⟩
        · intro hmem
          exact hnomid (r - 1) hmem ⟨by omega, by omega⟩
        · intro j h1 h2
          omega
      · rw [if_neg hc]
        push_neg at hc
        obtain ⟨hpu1, hpu2, hpu3⟩ := hfree
        refine ⟨by omega, hpu2, ?_⟩
        intro j h1 h2
        rcases Nat.lt_trichotomy j pr with hj | hj | hj
        · exact hpu3 j h1 hj
        · rw [hj, hS]
          simp
        · omega
    show List.Forall₂ _ (r :: rest') ((if pr ≠ r - 1 then r - 1 else pu) ::
      prevScan (if pr ≠ r - 1 then r - 1 else pu) r rest')
    refine List.Forall₂.cons hfree' ?_
    exact ih (pre ++ [pr]) _ r S (by rw [hS]; simp) hpw hfree'

theorem prevUnremoved_correct (S : List Nat) (hpw : S.Pairwise (· < ·))
    (hge : ∀ r ∈ S, 1 ≤ r) :
    List.Forall₂ (fun r p => isPrevFree S r p) S (prevUnremoved S) := by
  cases S with
  | nil => exact List.Forall₂.nil
  | cons r0 rest =>
    have hr0 : 1 ≤ r0 := hge r0 (by simp)
    have hfree : isPrevFree (r0 :: rest) r0 (r0 - 1) := by
      refine ⟨by omega, ?_, by omega⟩
      intro hmem
      rcases List.mem_cons.mp hmem with h | h
      · omega
      · have := (List.pairwise_cons.mp hpw).1 _ h
        omega
    show List.Forall₂ _ (r0 :: rest) ((r0 - 1) :: prevScan (r0 - 1) r0 rest)
    exact List.Forall₂.cons hfree
      (prevScan_correct rest [] (r0 - 1) r0 (r0 :: rest) rfl hpw hfree)

theorem nextScan_correct :
    ∀ (revRest post : List Nat) (nu nr : Nat) (S : List Nat),
      S = revRest.reverse ++ nr :: post → S.Pairwise (· < ·) → isNextFree S nr nu →
      List.Forall₂ (fun r n => isNextFree S r n) revRest (nextScan nu nr revRest) := by
  intro revRest
  induction revRest with
  | nil =>
    intro post nu nr S _ _ _
    exact List.Forall₂.nil
  | cons r revRest' ih =>
    intro post nu nr S hS hpw hfree
    have hS' : S = revRest'.reverse ++ r :: nr :: post := by
      rw [hS]
      simp
    have hr_lt : r < nr := by
      have := hpw
      rw [hS', List.pairwise_append] at this
      exact (List.pairwise_cons.mp this.2.1).1 nr (by simp)
    have hnomid : ∀ j ∈ S, ¬(r < j ∧ j < nr) := by
      intro j hj ⟨hj1, hj2⟩
      have hpw' := hpw
      rw [hS', List.pairwise_append] at hpw'
      rw [hS'] at hj
      rcases List.mem_append.mp hj with hj | hj
      · have := hpw'.2.2 j hj r (by simp)
        omega
      · rcases List.mem_cons.mp hj with rfl | hj
        · omega
        · rcases List.mem_cons.mp hj with rfl | hj
          · omega
          · have h2 := hpw'.2.1
            have := (List.pairwise_cons.mp (List.pairwise_cons.mp h2).2).1 j hj
            omega
    have hfree' : isNextFree S r (if nr ≠ r + 1 then r + 1 else nu) := by
      by_cases hc : nr ≠ r + 1
      · rw [if_pos hc]
        refine ⟨by omega, ?_, ?_⟩
        · intro hmem
          exact hnomid (r + 1) hmem ⟨by omega, by omega⟩
        · intro j h1 h2
          omega
      · rw [if_neg hc]
        push_neg at hc
        obtain ⟨hnu1, hnu2, hnu3⟩ := hfree
        refine ⟨by omega, hnu2, ?_⟩
        intro j h1 h2
        rcases Nat.lt_trichotomy j nr with hj | hj | hj
        · omega
        · rw [hj, hS']
          simp
        · exact hnu3 j hj h2
    show List.Forall₂ _ (r :: revRest') ((if nr ≠ r + 1 then r + 1 else nu) ::
      nextScan (if nr ≠ r + 1 then r + 1 else nu) r revRest')
    refine List.Forall₂.cons hfree' ?_
    exact ih (nr :: post) _ r S hS' hpw hfree'

theorem nextUnremoved_correct (S : List Nat) (hpw : S.Pairwise (· < ·)) :
    List.Forall₂ (fun r n => isNextFree S r n) S (nextUnremoved S) := by
  cases hrev : S.reverse with
  | nil =>
    have hnil : S = [] := by
      have := congrArg List.reverse hrev
      simpa using this
    subst hnil
    exact List.Forall₂.nil
  | cons rN revRest =>
    have hSeq : S = revRest.reverse ++ [rN] := by
      have := congrArg List.reverse hrev
      simpa using this
    have hfree : isNextFree S rN (rN + 1) := by
      refine ⟨by omega, ?_, by omega⟩
      intro hmem
      rw [hSeq] at hmem hpw
      rw [List.pairwise_append] at hpw
      rcases List.mem_append.mp hmem with h | h
      · have := hpw.2.2 _ h rN (by simp)
        omega
      · rcases List.mem_singleton.mp h with h
        omega
    have hscan := nextScan_correct revRest [] (rN + 1) rN S
      (by rw [hSeq]) hpw hfree
    have hresult : nextUnremoved S =
        (nextScan (rN + 1) rN revRest).reverse ++ [rN + 1] := by
      unfold nextUnremoved
      rw [hrev]
      simp
    rw [hresult]
    have hall := forall₂_append_of (List.forall₂_reverse_iff.mpr hscan)
      (List.Forall₂.cons hfree List.Forall₂.nil)
    rw [← hSeq] at hall
    exact hall

theorem applyInterp_spec (times : List ℚ) :
    ∀ (T : List (Nat × Nat × Nat)) (stream : List ℚ),
      T.Pairwise (fun a b => a.2.1 ≠ b.2.1) →
      (∀ t ∈ T, t.2.1 < stream.length) →
      (∀ t ∈ T, ∀ t' ∈ T, t.1 ≠ t'.2.1 ∧ t.2.2 ≠ t'.2.1) →
      (applyInterp times T stream).length = stream.length ∧
      (∀ j, (∀ t ∈ T, j ≠ t.2.1) →
        (applyInterp times T stream).getD j 0 = stream.getD j 0) ∧
      (∀ t ∈ T, (applyInterp times T stream).getD t.2.1 0 =
        stream.getD t.1 0 + ((times.getD t.2.1 0 - times.getD t.1 0) /
          (times.getD t.2.2 0 - times.getD t.1 0)) *
          (stream.getD t.2.2 0 - stream.getD t.1 0)) := by
  intro T
  induction T with
  | nil =>
    intro stream _ _ _
    exact ⟨rfl, fun j _ => rfl, fun t ht => absurd ht (by simp)⟩
  | cons t0 rest ih =>
    obtain ⟨p, r, n⟩ := t0
    intro stream hnd hbound hdist
    have hr : r < stream.length := by
      have := hbound (p, r, n) (by simp)
      simpa using this
    set v := stream.getD p 0 + ((times.getD r 0 - times.getD p 0) /
      (times.getD n 0 - times.getD p 0)) * (stream.getD n 0 - stream.getD p 0)
      with hv
    have happly : applyInterp times ((p, r, n) :: rest) stream =
        applyInterp times rest (stream.set r v) := rfl
    set stream1 := stream.set r v with hs1
    have hlen1 : stream1.length = stream.length := by
      rw [hs1, List.length_set]
    have hset_ne : ∀ j, j ≠ r → stream1.getD j 0 = stream.getD j 0 := by
      intro j hj
      rw [List.getD_eq_getElem?_getD, List.getD_eq_getElem?_getD, hs1,
        List.getElem?_set_ne (Ne.symm hj)]
    have hset_eq : stream1.getD r 0 = v := by
      rw [List.getD_eq_getElem?_getD, hs1, List.getElem?_set_self hr]
      rfl
    have hnd' := (List.pairwise_cons.mp hnd).2
    have hhead := (List.pairwise_cons.mp hnd).1
    have hbound' : ∀ t ∈ rest, t.2.1 < stream1.length := by
      rw [hlen1]
      exact fun t ht => hbound t (List.mem_cons_of_mem _ ht)
    have hdist' : ∀ t ∈ rest, ∀ t' ∈ rest, t.1 ≠ t'.2.1 ∧ t.2.2 ≠ t'.2.1 :=
      fun t ht t' ht' =>
        hdist t (List.mem_cons_of_mem _ ht) t' (List.mem_cons_of_mem _ ht')
    obtain ⟨ihlen, ihunch, ihval⟩ := ih stream1 hnd' hbound' hdist'
    refine ⟨?_, ?_, ?_⟩
    · rw [happly, ihlen, hlen1]
    · intro j hj
      rw [happly, ihunch j (fun t ht => hj t (List.mem_cons_of_mem _ ht)),
        hset_ne j (hj (p, r, n) (by simp))]
    · intro t ht
      rcases List.mem_cons.mp ht with rfl | ht'
      · rw [happly]
        have hne_rest : ∀ t' ∈ rest, (r : Nat) ≠ t'.2.1 := fun t' ht' => hhead t' ht'
        rw [ihunch r hne_rest, hset_eq]
      · rw [happly, ihval t ht']
        have h1 : t.1 ≠ r := by
          have := (hdist t (List.mem_cons_of_mem _ ht') (p, r, n) (by simp)).1
          simpa using this
        have h2 : t.2.2 ≠ r := by
          have := (hdist t (List.mem_cons_of_mem _ ht') (p, r, n) (by simp)).2
          simpa using this
        rw [hset_ne t.1 h1, hset_ne t.2.2 h2]

theorem removedPoints_length (k : Nat) (perm : List Nat) :
    (removedPoints k perm).length = min k perm.length := by
  unfold removedPoints
  rw [List.length_mergeSort, List.length_map, List.length_take]

theorem removedPoints_mem (k : Nat) (perm : List Nat) (r : Nat) :
    r ∈ removedPoints k perm ↔ r ∈ (perm.take k).map (· + 1) :=
  (List.mergeSort_perm _ _).mem_iff

theorem removedPoints_nodup (k : Nat) (perm : List Nat) (hnd : perm.Nodup) :
    (removedPoints k perm).Nodup := by
  unfold removedPoints
  rw [(List.mergeSort_perm _ _).nodup_iff]
  apply List.Nodup.map
  · intro a b hab
    simpa using hab
  · exact (List.take_sublist k perm).nodup hnd

theorem removedPoints_sorted (k : Nat) (perm : List Nat) (hnd : perm.Nodup) :
    (removedPoints k perm).Pairwise (· < ·) := by
  have hle : (removedPoints k perm).Pairwise (fun a b => a ≤ b) := by
    have := @List.sorted_mergeSort Nat (fun a b : Nat => decide (a ≤ b))
      (fun a b c hab hbc => by
        simp only [decide_eq_true_eq] at hab hbc ⊢
        omega)
      (fun a b => by
        rcases Nat.le_total a b with h | h <;> simp [h])
      ((perm.take k).map (· + 1))
    exact this.imp (fun h => by simpa using h)
  have hne : (removedPoints k perm).Pairwise (fun a b : Nat => a ≠ b) :=
    removedPoints_nodup k perm hnd
  exact (hle.and hne).imp (fun h => lt_of_le_of_ne h.1 h.2)

theorem removedPoints_bounds (k : Nat) (perm : List Nat) (m : Nat)
    (hperm : perm.Perm (List.range m)) :
    ∀ r ∈ removedPoints k perm, 1 ≤ r ∧ r < m + 1 := by
  intro r hr
  rw [removedPoints_mem] at hr
  obtain ⟨j, hj, rfl⟩ := List.mem_map.mp hr
  have hjp : j ∈ perm := List.mem_of_mem_take hj
  have hjr : j ∈ List.range m := hperm.subset hjp
  rw [List.mem_range] at hjr
  omega

theorem zip3_facts (S : List Nat) :
    ∀ (rs ps ns : List Nat),
      List.Forall₂ (fun r p => isPrevFree S r p) rs ps →
      List.Forall₂ (fun r n => isNextFree S r n) rs ns →
      (∀ t ∈ zip3 ps rs ns, isPrevFree S t.2.1 t.1 ∧ isNextFree S t.2.1 t.2.2) ∧
      (∀ r ∈ rs, ∃ t ∈ zip3 ps rs ns, t.2.1 = r) ∧
      (zip3 ps rs ns).map (fun t => t.2.1) = rs := by
  intro rs
  induction rs with
  | nil =>
    intro ps ns h1 h2
    cases h1
    cases h2
    exact ⟨by simp [zip3], by simp, by simp [zip3]⟩
  | cons r rs' ih =>
    intro ps ns h1 h2
    cases h1 with
    | cons hp h1' =>
      cases h2 with
      | cons hn h2' =>
        rename_i p ps' n ns'
        obtain ⟨iha, ihb, ihc⟩ := ih ps' ns' h1' h2'
        have hz : zip3 (p :: ps') (r :: rs') (n :: ns') =
            (p, (r, n)) :: zip3 ps' rs' ns' := rfl
        refine ⟨?_, ?_, ?_⟩
        · intro t ht
          rw [hz] at ht
          rcases List.mem_cons.mp ht with rfl | ht'
          · exact ⟨hp, hn⟩
          · exact iha t ht'
        · intro r' hr'
          rcases List.mem_cons.mp hr' with rfl | hr'
          · exact ⟨(p, (r', n)), by rw [hz]; simp, rfl⟩
          · obtain ⟨t, ht, htr⟩ := ihb r' hr'
            exact ⟨t, by rw [hz]; exact List.mem_cons_of_mem _ ht, htr⟩
        · rw [hz, List.map_cons, ihc]

end MissingnessLemmas

/-- Claim C6 (amended): when `int(length * missing_rate) >= 1` and
`length >= 3`, the missingness pass selects
`min(int(length * missing_rate), length - 2)` interior time indices — never
index 0 or `length - 1` — and replaces the value at each selected index `r`
with `prev + ((t_r - t_prev) / (t_next - t_prev)) * (next - prev)`, where
`prev`/`next` are the original stream values at the nearest unselected
indices below and above `r`; values at unselected indices are unchanged.
(The unamended claim over-counts the selection when
`int(length * missing_rate) > length - 2` and ignores the `IndexError` raised
when the selection is empty; see the counterexample.) -/
theorem get_data_missingness_spec (times stream : List ℚ) (rate : ℚ)
    (perm : List Nat)
    (hperm : perm.Perm (List.range (stream.length - 2)))
    (hk : 1 ≤ (pyTrunc ((stream.length : ℚ) * rate)).toNat)
    (hlen3 : 3 ≤ stream.length) :
    let k := (pyTrunc ((stream.length : ℚ) * rate)).toNat
    let removed := removedPoints k perm
    removed.length = min k (stream.length - 2) ∧
    removed.Nodup ∧
    (∀ r ∈ removed, 1 ≤ r ∧ r < stream.length - 1) ∧
    ∃ result, interpolateChannel times stream removed = some result ∧
      result.length = stream.length ∧
      (∀ j, j ∉ removed → result.getD j 0 = stream.getD j 0) ∧
      (∀ r ∈ removed, ∀ p n, isPrevFree removed r p → isNextFree removed r n →
        result.getD r 0 = stream.getD p 0 +
          ((times.getD r 0 - times.getD p 0) / (times.getD n 0 - times.getD p 0)) *
            (stream.getD n 0 - stream.getD p 0)) := by
  intro k removed
  have hpermlen : perm.length = stream.length - 2 :=
    hperm.length_eq.trans (List.length_range _)
  have hlen_r : removed.length = min k (stream.length - 2) := by
    show (removedPoints k perm).length = _
    rw [removedPoints_length, hpermlen]
  have hnd_perm : perm.Nodup := hperm.nodup_iff.mpr (List.nodup_range _)
  have hnd : removed.Nodup := removedPoints_nodup k perm hnd_perm
  have hsort : removed.Pairwise (· < ·) := removedPoints_sorted k perm hnd_perm
  have hbounds0 := removedPoints_bounds k perm (stream.length - 2) hperm
  have hbounds : ∀ r ∈ removed, 1 ≤ r ∧ r < stream.length - 1 := by
    intro r hr
    have := hbounds0 r hr
    omega
  refine ⟨hlen_r, hnd, hbounds, ?_⟩
  have hne : removed ≠ [] := by
    intro h
    have h0 : removed.length = 0 := by rw [h]; rfl
    rw [hlen_r] at h0
    omega
  obtain ⟨r0, rest, hcons⟩ := List.exists_cons_of_ne_nil hne
  have hinterp : interpolateChannel times stream removed =
      some (applyInterp times
        (zip3 (prevUnremoved removed) removed (nextUnremoved removed)) stream) := by
    rw [hcons]
    rfl
  have hprev := prevUnremoved_correct removed hsort (fun r hr => (hbounds r hr).1)
  have hnext := nextUnremoved_correct removed hsort
  obtain ⟨hz1, hz2, hz3⟩ := zip3_facts removed removed
    (prevUnremoved removed) (nextUnremoved removed) hprev hnext
  have hTnd : (zip3 (prevUnremoved removed) removed (nextUnremoved removed)).Pairwise
      (fun a b => a.2.1 ≠ b.2.1) := by
    have hmapnd := hnd
    rw [← hz3] at hmapnd
    exact List.pairwise_map.mp hmapnd
  have hTmem : ∀ t ∈ zip3 (prevUnremoved removed) removed (nextUnremoved removed),
      t.2.1 ∈ removed := by
    intro t ht
    exact hz3 ▸ List.mem_map.mpr ⟨t, ht, rfl⟩
  have hTbound : ∀ t ∈ zip3 (prevUnremoved removed) removed (nextUnremoved removed),
      t.2.1 < stream.length := by
    intro t ht
    have := hbounds _ (hTmem t ht)
    omega
  have hTdist : ∀ t ∈ zip3 (prevUnremoved removed) removed (nextUnremoved removed),
      ∀ t' ∈ zip3 (prevUnremoved removed) removed (nextUnremoved removed),
      t.1 ≠ t'.2.1 ∧ t.2.2 ≠ t'.2.1 := by
    intro t ht t' ht'
    have hmem' := hTmem t' ht'
    obtain ⟨hpf, hnf⟩ := hz1 t ht
    constructor
    · intro hc
      exact hpf.2.1 (hc ▸ hmem')
    · intro hc
      exact hnf.2.1 (hc ▸ hmem')
  obtain ⟨halen, haunch, haval⟩ := applyInterp_spec times
    (zip3 (prevUnremoved removed) removed (nextUnremoved removed)) stream
    hTnd hTbound hTdist
  refine ⟨_, hinterp, halen, ?_, ?_⟩
  · intro j hj
    apply haunch
    intro t ht hc
    exact hj (hc ▸ hTmem t ht)
  · intro r hr p n hp hn
    obtain ⟨t, ht, htr⟩ := hz2 r hr
    obtain ⟨hpf, hnf⟩ := hz1 t ht
    rw [htr] at hpf hnf
    have hpe : t.1 = p := isPrevFree_unique hpf hp
    have hne' : t.2.2 = n := isNextFree_unique hnf hn
    have hval := haval t ht
    rw [htr, hpe, hne'] at hval
    exact hval

/-- Counterexample to claim C6 as stated: with `length = 4` and
`missing_rate = 3/4` the code selects only `length - 2 = 2` interior points,
not `int(length * missing_rate) = 3`; and with `missing_rate = 1/10`
(`int(4 * 1/10) = 0`) the selection is empty and the pass raises an
`IndexError` (`removed_points[0]`) instead of leaving the channel
unchanged. -/
theorem get_data_missingness_claim_counterexample :
    (removedPoints (pyTrunc ((4 : ℚ) * (3 / 4))).toNat [0, 1]).length ≠
      (pyTrunc ((4 : ℚ) * (3 / 4))).toNat ∧
    interpolateChannel [0, 1, 2, 3] [5, 6, 7, 8]
      (removedPoints (pyTrunc ((4 : ℚ) * (1 / 10))).toNat [0, 1]) = none := by
  have h3 : (pyTrunc ((4 : ℚ) * (3 / 4))).toNat = 3 := by
    norm_num [pyTrunc]
    rfl
  have h0 : (pyTrunc ((4 : ℚ) * (1 / 10))).toNat = 0 := by
    norm_num [pyTrunc]
  constructor
  · rw [h3, removedPoints_length]
    decide
  · rw [h0]
    have hempty : removedPoints 0 [0, 1] = [] := by
      unfold removedPoints
      simp
    rw [hempty]
    rfl

/-- Witness for C6: a channel of length 5 with `missing_rate = 1/2`
(`int(5 * 1/2) = 2` interior points selected from the permutation
`[2, 0, 1]` of `0..2`). -/
theorem get_data_missingness_spec_witness :
    (([2, 0, 1] : List Nat).Perm
      (List.range (([5, 6, 7, 8, 9] : List ℚ).length - 2)) ∧
      1 ≤ (pyTrunc (((([5, 6, 7, 8, 9] : List ℚ).length : Nat) : ℚ) * (1 / 2))).toNat ∧
      3 ≤ ([5, 6, 7, 8, 9] : List ℚ).length) ∧
    (let k := (pyTrunc (((([5, 6, 7, 8, 9] : List ℚ).length : Nat) : ℚ) * (1 / 2))).toNat
     let removed := removedPoints k [2, 0, 1]
     removed.length = min k (([5, 6, 7, 8, 9] : List ℚ).length - 2) ∧
     removed.Nodup ∧
     (∀ r ∈ removed, 1 ≤ r ∧ r < ([5, 6, 7, 8, 9] : List ℚ).length - 1) ∧
     ∃ result, interpolateChannel [0, 1, 2, 3, 4] [5, 6, 7, 8, 9] removed = some result ∧
       result.length = ([5, 6, 7, 8, 9] : List ℚ).length ∧
       (∀ j, j ∉ removed → result.getD j 0 = ([5, 6, 7, 8, 9] : List ℚ).getD j 0) ∧
       (∀ r ∈ removed, ∀ p n, isPrevFree removed r p → isNextFree removed r n →
         result.getD r 0 = ([5, 6, 7, 8, 9] : List ℚ).getD p 0 +
           ((([0, 1, 2, 3, 4] : List ℚ).getD r 0 - ([0, 1, 2, 3, 4] : List ℚ).getD p 0) /
             (([0, 1, 2, 3, 4] : List ℚ).getD n 0 - ([0, 1, 2, 3, 4] : List ℚ).getD p 0)) *
             (([5, 6, 7, 8, 9] : List ℚ).getD n 0 - ([5, 6, 7, 8, 9] : List ℚ).getD p 0))) :=
  ⟨⟨by decide, by norm_num [pyTrunc], by decide⟩,
   get_data_missingness_spec [0, 1, 2, 3, 4] [5, 6, 7, 8, 9] (1 / 2) [2, 0, 1]
     (by decide) (by norm_num [pyTrunc]) (by decide)⟩

/-- Witness for C7: padding the channel `[1, 2]` to length 4. -/
theorem pad_spec_witness :
    ([(1 : ℚ), 2] ≠ [] ∧ [(1 : ℚ), 2].length ≤ 4) ∧
    ((_pad [(1 : ℚ), 2] 4).length = 4 ∧
      (∀ i, i < [(1 : ℚ), 2].length →
        (_pad [(1 : ℚ), 2] 4).getD i 0 = [(1 : ℚ), 2].getD i 0) ∧
      (∀ i, [(1 : ℚ), 2].length ≤ i → i < 4 →
        (_pad [(1 : ℚ), 2] 4).getD i 0 = [(1 : ℚ), 2].getLast (by decide))) :=
  ⟨⟨by decide, by decide⟩, pad_spec [(1 : ℚ), 2] 4 (by decide) (by decide)⟩
